import Mathlib

/-!
Verification of the `lightcycle` consistent-hash-ring library.

The development shallowly embeds `src/lib.rs`:

* the BLAKE3 hash (as used via `blake3::hash(..).to_string()`, i.e. the
  lowercase-hex digest of the default 32-byte output) is implemented
  executably on `Nat` words, for single-chunk inputs (every string this
  library hashes is far below the 1024-byte chunk limit);
* the `LightCycle` struct and its `add` / `remove` / `locate` /
  `rebalance` / `resource_count` / `len` methods become pure functions on
  an explicit state.  `BTreeMap` becomes a key-sorted association list,
  the two `HashMap`s become association lists (Rust's `HashMap` iteration
  order is unspecified; the model iterates in insertion order, which is
  only observable on replica-key collisions);
* resources (`Box<dyn HasId>`) carry no information beyond their id
  string, so they are modelled by that string.
-/

namespace LC

/-! ### 32-bit word helpers (machine integers as `Nat` mod `2^32`) -/

def mask32 (n : Nat) : Nat := n % 4294967296

def add32 (a b : Nat) : Nat := (a + b) % 4294967296

def xor32 (a b : Nat) : Nat := a ^^^ b

def rotr32 (x n : Nat) : Nat := ((x >>> n) ||| (x <<< (32 - n))) % 4294967296

/-- Indexing into a word list, defaulting to 0. -/
def lget (l : List Nat) (i : Nat) : Nat := (l.drop i).headD 0

/-! ### BLAKE3 (single-chunk inputs) -/

def blakeIV : List Nat :=
  [0x6A09E667, 0xBB67AE85, 0x3C6EF372, 0xA54FF53A,
   0x510E527F, 0x9B05688C, 0x1F83D9AB, 0x5BE0CD19]

def msgPermutation : List Nat := [2, 6, 3, 10, 7, 0, 4, 13, 1, 11, 12, 5, 9, 14, 15, 8]

/-- The BLAKE3 quarter-round `g` acting on state positions `a b c d`
with message words `mx my`. -/
def gFn (st : List Nat) (a b c d : Nat) (mx my : Nat) : List Nat :=
  let A := add32 (add32 (lget st a) (lget st b)) mx
  let D := rotr32 (xor32 (lget st d) A) 16
  let C := add32 (lget st c) D
  let B := rotr32 (xor32 (lget st b) C) 12
  let A2 := add32 (add32 A B) my
  let D2 := rotr32 (xor32 D A2) 8
  let C2 := add32 C D2
  let B2 := rotr32 (xor32 B C2) 7
  (((st.set a A2).set b B2).set c C2).set d D2

def roundFn (st m : List Nat) : List Nat :=
  let st := gFn st 0 4 8 12 (lget m 0) (lget m 1)
  let st := gFn st 1 5 9 13 (lget m 2) (lget m 3)
  let st := gFn st 2 6 10 14 (lget m 4) (lget m 5)
  let st := gFn st 3 7 11 15 (lget m 6) (lget m 7)
  let st := gFn st 0 5 10 15 (lget m 8) (lget m 9)
  let st := gFn st 1 6 11 12 (lget m 10) (lget m 11)
  let st := gFn st 2 7 8 13 (lget m 12) (lget m 13)
  gFn st 3 4 9 14 (lget m 14) (lget m 15)

def permuteM (m : List Nat) : List Nat := msgPermutation.map (lget m)

def compressLoop : Nat → List Nat → List Nat → List Nat
  | 0, st, _ => st
  | n + 1, st, m => compressLoop n (roundFn st m) (permuteM m)

/-- The BLAKE3 compression function, returning the 8 chaining-value words
(also the first 32 bytes of output when `flags` includes ROOT). -/
def compress (cv block : List Nat) (counter blockLen flags : Nat) : List Nat :=
  let st0 := cv.take 8 ++ blakeIV.take 4 ++
    [counter % 4294967296, counter / 4294967296 % 4294967296, blockLen, flags]
  let stf := compressLoop 7 st0 block
  (List.range 8).map (fun i => xor32 (lget stf i) (lget stf (i + 8)))

/-- 16 little-endian 32-bit words from at most 64 bytes (zero padded). -/
def bytesToWords (b : List Nat) : List Nat :=
  (List.range 16).map (fun i =>
    lget b (4 * i) + 256 * lget b (4 * i + 1) +
    65536 * lget b (4 * i + 2) + 16777216 * lget b (4 * i + 3))

/-- Split bytes into 64-byte blocks (fuelled structural recursion; the empty
input yields the single empty block). -/
def chunksAux : Nat → List Nat → List (List Nat)
  | 0, l => [l]
  | fuel + 1, l => if l.length ≤ 64 then [l] else l.take 64 :: chunksAux fuel (l.drop 64)

def chunks64 (l : List Nat) : List (List Nat) := chunksAux l.length l

/-- Fold the compression function over the blocks of a single chunk.
Flags: CHUNK_START = 1, CHUNK_END = 2, ROOT = 8; the chunk counter is 0. -/
def b3run (cv : List Nat) (first : Bool) : List (List Nat) → List Nat
  | [] => cv
  | [b] => compress cv (bytesToWords b) 0 b.length ((if first then 1 else 0) + 2 + 8)
  | b :: b2 :: rest =>
      b3run (compress cv (bytesToWords b) 0 b.length (if first then 1 else 0)) false (b2 :: rest)

/-- The 8 output words of the BLAKE3 hash of a byte string (< 1024 bytes). -/
def b3words (bytes : List Nat) : List Nat := b3run blakeIV true (chunks64 bytes)

def hexDigit (n : Nat) : Char := if n < 10 then Char.ofNat (48 + n) else Char.ofNat (87 + n)

def byteHex (b : Nat) : List Char := [hexDigit (b / 16), hexDigit (b % 16)]

def wordHexLE (w : Nat) : List Char :=
  byteHex (w % 256) ++ byteHex (w / 256 % 256) ++
  byteHex (w / 65536 % 256) ++ byteHex (w / 16777216 % 256)

/-- UTF-8 encoding of one character (mirrors Rust `str::as_bytes`). -/
def charUtf8 (c : Char) : List Nat :=
  let n := c.toNat
  if n < 128 then [n]
  else if n < 2048 then [192 + n / 64, 128 + n % 64]
  else if n < 65536 then [224 + n / 4096, 128 + n / 64 % 64, 128 + n % 64]
  else [240 + n / 262144, 128 + n / 4096 % 64, 128 + n / 64 % 64, 128 + n % 64]

def utf8Bytes (s : String) : List Nat := s.data.flatMap charUtf8

/-- `blake3::hash(s.as_bytes()).to_string()`: the lowercase-hex digest. -/
def b3hex (s : String) : String := String.mk ((b3words (utf8Bytes s)).flatMap wordHexLE)

/-! ### String ordering (Rust `String`'s `Ord`: lexicographic on UTF-8 bytes,
which coincides with lexicographic order on scalar values) -/

def clLt : List Char → List Char → Bool
  | [], [] => false
  | [], _ :: _ => true
  | _ :: _, [] => false
  | a :: as, b :: bs => if a.toNat < b.toNat then true
      else if b.toNat < a.toNat then false else clLt as bs

def strLt (a b : String) : Bool := clLt a.data b.data

def strLe (a b : String) : Bool := ! strLt b a

/-! ### Association-list maps (for the two Rust `HashMap`s) -/

def alookup [DecidableEq κ] : List (κ × α) → κ → Option α
  | [], _ => none
  | p :: t, i => if p.1 = i then some p.2 else alookup t i

def ainsert [DecidableEq κ] : List (κ × α) → κ → α → List (κ × α)
  | [], i, v => [(i, v)]
  | p :: t, i, v => if p.1 = i then (i, v) :: t else p :: ainsert t i v

def aerase [DecidableEq κ] : List (κ × α) → κ → List (κ × α)
  | [], _ => []
  | p :: t, i => if p.1 = i then t else p :: aerase t i

/-! ### The ring index: a `BTreeMap<String, String>` as a key-sorted
association list -/

def ringInsert : List (String × String) → String → String → List (String × String)
  | [], k, v => [(k, v)]
  | p :: t, k, v =>
    if strLt k p.1 then (k, v) :: p :: t
    else if k = p.1 then (k, v) :: t
    else p :: ringInsert t k v

def ringErase : List (String × String) → String → List (String × String)
  | [], _ => []
  | p :: t, k => if k = p.1 then t else p :: ringErase t k

/-! ### The `LightCycle` struct and its methods -/

/-- `SIZE_PAD` in `lib.rs`. -/
def SIZE_PAD : Nat := 16

/-- `REPLICAS_PAD` in `lib.rs`. -/
def REPLICAS_PAD : Nat := 8

/-- The ring state.  A resource (`Box<dyn HasId>`) is represented by its id
string, the only data the ring ever consults. -/
structure LightCycle where
  replicas : Nat
  size : Nat
  resources : List String
  hashring : List (String × String)
  keycache : List (String × List (Nat × String))
  deriving Repr, DecidableEq

/-- `LightCycle::default()`. -/
def defaultRing : LightCycle :=
  { replicas := 4, size := 16, resources := [], hashring := [], keycache := [] }

/-- `LightCycle::new_with_replica_count`. -/
def newRing (replicas : Nat) : LightCycle :=
  { replicas := replicas, size := replicas + SIZE_PAD,
    resources := [], hashring := [], keycache := [] }

/-- The string `format!("{}{}", id, i)` hashed for replica `i` of `id`. -/
def hashItem (id : String) (i : Nat) : String := id ++ toString i

/-- The replica key for `(id, i)`. -/
def hkey (id : String) (i : Nat) : String := b3hex (hashItem id i)

/-- One iteration of the replica loop shared by `add` and `rebalance`:
use the cached key if present, otherwise hash and cache it; then insert
the key into the ring. -/
def replicaStep (id : String) (cr : List (Nat × String) × List (String × String))
    (i : Nat) : List (Nat × String) × List (String × String) :=
  match alookup cr.1 i with
  | some k => (cr.1, ringInsert cr.2 k id)
  | none =>
      let k := hkey id i
      (ainsert cr.1 i k, ringInsert cr.2 k id)

/-- The `for i in 0..replicas` loop of `add` (also repeated verbatim inside
`rebalance`), acting on `id`'s key cache and the ring. -/
def addReplicas (reps : Nat) (c : List (Nat × String)) (ring : List (String × String))
    (id : String) : List (Nat × String) × List (String × String) :=
  (List.range reps).foldl (replicaStep id) (c, ring)

/-- The body of `rebalance`'s `for id in ids` loop: fetch or create `id`'s
key cache, run the replica loop, store the cache back. -/
def cacheRingStep (reps : Nat)
    (acc : List (String × List (Nat × String)) × List (String × String))
    (id : String) : List (String × List (Nat × String)) × List (String × String) :=
  let c0 := (alookup acc.1 id).getD []
  let cr := addReplicas reps c0 acc.2 id
  (ainsert acc.1 id cr.1, cr.2)

/-- `LightCycle::rebalance`.  Rust iterates `self.resources.keys()` in
`HashMap` order, which is unspecified; the model iterates in insertion
order (observable only when replica keys collide). -/
def rebalance (lc : LightCycle) : LightCycle :=
  let len := lc.resources.length
  let reps := len + REPLICAS_PAD
  let p := lc.resources.foldl (cacheRingStep reps) (lc.keycache, ([] : List (String × String)))
  { replicas := reps, size := len + SIZE_PAD, resources := lc.resources,
    keycache := p.1, hashring := p.2 }

/-- `HashRing::add` (possibly triggering `rebalance`). -/
def add (lc : LightCycle) (id : String) : LightCycle :=
  let c0 := (alookup lc.keycache id).getD []
  let cr := addReplicas lc.replicas c0 lc.hashring id
  let res1 := if id ∈ lc.resources then lc.resources else lc.resources ++ [id]
  let lc1 : LightCycle :=
    { lc with keycache := ainsert lc.keycache id cr.1, hashring := cr.2, resources := res1 }
  if lc1.size < res1.length then rebalance lc1 else lc1

/-- `HashRing::remove`: delete the cached replica keys of `id` from the
ring, then purge the cache entry and the registry entry. -/
def remove (lc : LightCycle) (id : String) : LightCycle :=
  let ring1 := match alookup lc.keycache id with
    | some c => c.foldl (fun r p => ringErase r p.2) lc.hashring
    | none => lc.hashring
  { lc with
    hashring := ring1
    keycache := aerase lc.keycache id
    resources := lc.resources.erase id }

/-- `HashRing::locate`: keep the entries whose *value* is `≤` the raw
lookup string, take the last one in ascending key order; otherwise fall
back to the entry with the smallest key; `resources.get` may still miss. -/
def locate (lc : LightCycle) (id : String) : Option String :=
  match (lc.hashring.filter (fun p => strLe p.2 id)).getLast? with
  | some p => if p.2 ∈ lc.resources then some p.2 else none
  | none =>
    match lc.hashring.head? with
    | some p => if p.2 ∈ lc.resources then some p.2 else none
    | none => none

/-- `HashRing::resource_count`. -/
def resourceCount (lc : LightCycle) : Nat := lc.resources.length

/-- `HashRing::len`: the number of ring entries. -/
def ringLen (lc : LightCycle) : Nat := lc.hashring.length

/-! ### Operation sequences -/

inductive Op where
  | add (id : String)
  | remove (id : String)
  | rebalance
  deriving Repr, DecidableEq

def step (lc : LightCycle) : Op → LightCycle
  | .add id => add lc id
  | .remove id => remove lc id
  | .rebalance => rebalance lc

def run (lc : LightCycle) (ops : List Op) : LightCycle := ops.foldl step lc

/-- Build a ring by adding each id in order to a fresh ring. -/
def build (r : Nat) (ids : List String) : LightCycle := ids.foldl add (newRing r)

/-- Drop every entry of the replica key cache. -/
def clearCache (lc : LightCycle) : LightCycle := { lc with keycache := [] }

/-- Modelled from the spec (§4.1 `locate`): hash the lookup key with the
replica-key hash function, return the resource id of the first ring entry
whose key is `≥` the query key in ascending order, wrapping around to the
smallest key, and `none` on an empty index.  This is the spec-side
definition that claim C1 compares against the code's `locate`. -/
def specLocate (lc : LightCycle) (key : String) : Option String :=
  let qk := b3hex key
  match lc.hashring.find? (fun p => strLe qk p.1) with
  | some p => some p.2
  | none =>
    match lc.hashring.head? with
    | some p => some p.2
    | none => none

/-! ### Definitions used by the verification layer -/

/-- The ring index is sorted strictly by key (the `BTreeMap` representation
invariant). -/
def RSorted (m : List (String × String)) : Prop :=
  m.Pairwise (fun p q => strLt p.1 q.1 = true)

/-- Every entry of `id`'s key cache holds exactly the replica key of its
index. -/
def CachePure (id : String) (c : List (Nat × String)) : Prop :=
  ∀ p ∈ c, p.2 = hkey id p.1

/-- Every per-id cache of the key cache is pure. -/
def KCPure (kc : List (String × List (Nat × String))) : Prop :=
  ∀ q ∈ kc, CachePure q.1 q.2

/-- The cache effect of one replica-loop iteration. -/
def cacheStep (id : String) (c : List (Nat × String)) (i : Nat) : List (Nat × String) :=
  match alookup c i with
  | some _ => c
  | none => ainsert c i (hkey id i)

def cacheFold (id : String) (c : List (Nat × String)) (is : List Nat) : List (Nat × String) :=
  is.foldl (cacheStep id) c

/-- Insert a list of key/value pairs into the ring, left to right. -/
def insertPairs (ring : List (String × String)) (ps : List (String × String)) :
    List (String × String) :=
  ps.foldl (fun r p => ringInsert r p.1 p.2) ring

/-- The replica pairs `(hkey id i, id)` for `i < reps`. -/
def idPairs (id : String) (reps : Nat) : List (String × String) :=
  (List.range reps).map (fun i => (hkey id i, id))

def allPairs (ids : List String) (reps : Nat) : List (String × String) :=
  ids.flatMap (fun id => idPairs id reps)

/-- The number of ring entries mapping to resource `id`. -/
def countId (lc : LightCycle) (id : String) : Nat :=
  (lc.hashring.filter (fun p => p.2 == id)).length

/-- No-collision condition: the replica keys of the ids in `ids`, for all
indices below `B`, are pairwise distinct. -/
def HKInj (ids : List String) (B : Nat) : Prop :=
  (ids.flatMap (fun id => (List.range B).map (hkey id))).Nodup

instance HKInj_decidable (ids : List String) (B : Nat) : Decidable (HKInj ids B) :=
  inferInstanceAs (Decidable ((ids.flatMap (fun id => (List.range B).map (hkey id))).Nodup))

instance RSorted_decidable (m : List (String × String)) : Decidable (RSorted m) :=
  inferInstanceAs
    (Decidable (m.Pairwise (fun (p q : String × String) => strLt p.1 q.1 = true)))

instance CachePure_decidable (id : String) (c : List (Nat × String)) :
    Decidable (CachePure id c) :=
  inferInstanceAs (Decidable (∀ p ∈ c, p.2 = hkey id p.1))

instance KCPure_decidable (kc : List (String × List (Nat × String))) :
    Decidable (KCPure kc) :=
  inferInstanceAs (Decidable (∀ q ∈ kc, CachePure q.1 q.2))

/-- The id an operation touches (`rebalance` touches none). -/
def opIdIn (op : Op) (D : List String) : Prop :=
  match op with
  | .add id => id ∈ D
  | .remove id => id ∈ D
  | .rebalance => True

/-- Structural well-formedness of a ring state; it holds for fresh rings
and is preserved by every operation, unconditionally. -/
structure WF (lc : LightCycle) : Prop where
  sorted : RSorted lc.hashring
  pure : KCPure lc.keycache
  resNd : lc.resources.Nodup
  ringRes : ∀ p ∈ lc.hashring, p.2 ∈ lc.resources
  ringCache : ∀ p ∈ lc.hashring,
    ∃ c, alookup lc.keycache p.2 = some c ∧ ∃ i, i < lc.replicas ∧ (i, p.1) ∈ c

/-- Well-formedness relative to an id universe `D` and replica-index bound
`B`; preserved by operations whose ids stay in `D` when no replica-key
collision occurs within `D × B`. -/
structure WFB (D : List String) (B : Nat) (lc : LightCycle) : Prop where
  wf : WF lc
  resD : ∀ id ∈ lc.resources, id ∈ D
  repB : lc.replicas ≤ B
  cacheB : ∀ q ∈ lc.keycache, ∀ r ∈ q.2, r.1 < B
  complete : ∀ id ∈ lc.resources, ∀ i, i < lc.replicas → (hkey id i, id) ∈ lc.hashring

/-- The cache of `id` before an `add` (`keycache.entry(id).or_default()`). -/
def cacheZero (kc : List (String × List (Nat × String))) (id : String) :
    List (Nat × String) :=
  (alookup kc id).getD []

/-- The state `add` reaches just before its rebalance check, in normal form
(valid when the cache is pure). -/
def addMid (lc : LightCycle) (id : String) : LightCycle :=
  { replicas := lc.replicas
    size := lc.size
    resources := if id ∈ lc.resources then lc.resources else lc.resources ++ [id]
    hashring := insertPairs lc.hashring (idPairs id lc.replicas)
    keycache := ainsert lc.keycache id
      (cacheFold id (cacheZero lc.keycache id) (List.range lc.replicas)) }

/-- The key cache after the rebalance loop, in normal form. -/
def rebCache (kc : List (String × List (Nat × String))) (ids : List String)
    (reps : Nat) : List (String × List (Nat × String)) :=
  ids.foldl (fun kc id => ainsert kc id (cacheFold id (cacheZero kc id) (List.range reps))) kc

/-- Erase from the ring the keys stored as values of a cache list (the ring
effect of `remove`). -/
def eraseVals (ring : List (String × String)) (c : List (Nat × String)) :
    List (String × String) :=
  c.foldl (fun r p => ringErase r p.2) ring

/-- The (replica count, size threshold) pair after `n` adds of distinct
resources into a fresh `newRing r`: it depends only on `r` and `n`,
because the rebalance trigger compares only counts. -/
def repSize (r : Nat) : Nat → Nat × Nat
  | 0 => (r, r + SIZE_PAD)
  | n + 1 =>
      if (repSize r n).2 < n + 1
      then (n + 1 + REPLICAS_PAD, n + 1 + SIZE_PAD)
      else repSize r n

/-! ### Concrete states for the theorems below -/

instance opIdIn_decidable (op : Op) (D : List String) : Decidable (opIdIn op D) :=
  match op with
  | .add id => inferInstanceAs (Decidable (id ∈ D))
  | .remove id => inferInstanceAs (Decidable (id ∈ D))
  | .rebalance => isTrue trivial

/-- A small two-resource ring used to witness the positive theorems. -/
def smallRing : LightCycle := build 2 ["a", "b"]

/-- A one-resource ring. -/
def singleRing : LightCycle := build 2 ["a"]

/-- The five-fruit ring of the repository's own tests (replica count 2). -/
def testRing : LightCycle :=
  build 2 ["apple", "papaya", "kumquat", "litchi", "raspberry"]

/-- Two resources whose replica items collide: `"a" ++ "10" = "a1" ++ "0"`
(and likewise index 11 vs 1). -/
def collideState : LightCycle := add (add (newRing 12) "a") "a1"

/-- `collideState` after removing `"a1"`: that removal also deleted the
two collided keys that `"a"` still needs, so `"a"` owns only 10 of its 12
replica keys. -/
def readdState : LightCycle := remove collideState "a1"

/-- Three resources that collide after a rebalance to replica count 11. -/
def rebalCollideState : LightCycle := rebalance (build 2 ["a", "a1", "b"])

/-- A stale-cache state: `"a"` was cached up to index 10, the ring was
rebalanced down to 9 replicas, then `"a1"` was added, whose replica 0 key
equals `"a"`'s stale index-10 key. -/
def staleState : LightCycle := add (rebalance (add (newRing 11) "a")) "a1"

/-- The `{"a", "a1"}` ring added in one order… -/
def orderRing1 : LightCycle := build 12 ["a", "a1"]

/-- …and in the other order. -/
def orderRing2 : LightCycle := build 12 ["a1", "a"]

/-- A ring constructed with replica count 0 holding one resource. -/
def zeroReplicaState : LightCycle := add (newRing 0) "a"

/-! ## Order lemmas for the string comparison -/

theorem charToNat_inj {a b : Char} (h : a.toNat = b.toNat) : a = b := by
  cases a with
  | mk v1 h1 =>
    cases b with
    | mk v2 h2 =>
      cases v1 with
      | mk f1 =>
        cases v2 with
        | mk f2 =>
          simp only [Char.toNat, UInt32.toNat] at h
          congr 1
          exact congrArg UInt32.mk (BitVec.eq_of_toNat_eq h)

theorem clLt_irrefl : ∀ l : List Char, clLt l l = false
  | [] => rfl
  | _ :: t => by simp [clLt, clLt_irrefl t]

theorem clLt_cons_iff {x y : Char} {xs ys : List Char} :
    clLt (x :: xs) (y :: ys) = true ↔
      x.toNat < y.toNat ∨ (x.toNat = y.toNat ∧ clLt xs ys = true) := by
  simp only [clLt]
  by_cases h1 : x.toNat < y.toNat
  · simp [h1]
  · by_cases h2 : y.toNat < x.toNat
    · simp [h1, h2]; omega
    · have : x.toNat = y.toNat := by omega
      simp [h1, h2, this]

theorem clLt_trans : ∀ a b c : List Char,
    clLt a b = true → clLt b c = true → clLt a c = true := by
  intro a
  induction a with
  | nil =>
    intro b c hab hbc
    cases b with
    | nil => simp [clLt] at hab
    | cons y ys =>
      cases c with
      | nil => simp [clLt] at hbc
      | cons z zs => simp [clLt]
  | cons x xs ih =>
    intro b c hab hbc
    cases b with
    | nil => simp [clLt] at hab
    | cons y ys =>
      cases c with
      | nil => simp [clLt] at hbc
      | cons z zs =>
        rw [clLt_cons_iff] at hab hbc ⊢
        rcases hab with h | ⟨he1, ht1⟩
        · rcases hbc with h2 | ⟨he2, _⟩
          · left; omega
          · left; omega
        · rcases hbc with h2 | ⟨he2, ht2⟩
          · left; omega
          · right; exact ⟨by omega, ih ys zs ht1 ht2⟩

theorem clLt_asymm : ∀ a b : List Char, clLt a b = true → clLt b a = false := by
  intro a
  induction a with
  | nil =>
    intro b hab
    cases b with
    | nil => simp [clLt] at hab
    | cons y ys => simp [clLt]
  | cons x xs ih =>
    intro b hab
    cases b with
    | nil => simp [clLt] at hab
    | cons y ys =>
      rw [clLt_cons_iff] at hab
      rw [Bool.eq_false_iff]
      intro hba
      rw [clLt_cons_iff] at hba
      rcases hab with h | ⟨he, ht⟩ <;> rcases hba with h2 | ⟨he2, ht2⟩
      · omega
      · omega
      · omega
      · have := ih ys ht
        rw [ht2] at this
        cases this

theorem clLt_total : ∀ a b : List Char, a = b ∨ clLt a b = true ∨ clLt b a = true := by
  intro a
  induction a with
  | nil =>
    intro b
    cases b with
    | nil => left; rfl
    | cons y ys => right; left; simp [clLt]
  | cons x xs ih =>
    intro b
    cases b with
    | nil => right; right; simp [clLt]
    | cons y ys =>
      by_cases h1 : x.toNat < y.toNat
      · right; left; simp [clLt, h1]
      · by_cases h2 : y.toNat < x.toNat
        · right; right; simp [clLt, h2]
        · have hxy : x = y := charToNat_inj (by omega)
          subst hxy
          rcases ih ys with h | h | h
          · left; rw [h]
          · right; left; simp [clLt, h]
          · right; right; simp [clLt, h]

theorem strLt_irrefl (a : String) : strLt a a = false := clLt_irrefl a.data

theorem strLt_trans {a b c : String} (h1 : strLt a b = true) (h2 : strLt b c = true) :
    strLt a c = true := clLt_trans a.data b.data c.data h1 h2

theorem strLt_asymm {a b : String} (h : strLt a b = true) : strLt b a = false :=
  clLt_asymm a.data b.data h

theorem strLt_total (a b : String) : a = b ∨ strLt a b = true ∨ strLt b a = true := by
  rcases clLt_total a.data b.data with h | h | h
  · left
    cases a; cases b; simp_all
  · right; left; exact h
  · right; right; exact h

theorem strLt_ne {a b : String} (h : strLt a b = true) : a ≠ b := by
  intro he; subst he; rw [strLt_irrefl] at h; cases h


section AssocLemmas

variable {κ α : Type} [DecidableEq κ]

theorem alookup_ainsert_self (l : List (κ × α)) (i : κ) (v : α) :
    alookup (ainsert l i v) i = some v := by
  induction l with
  | nil => simp [ainsert, alookup]
  | cons p t ih =>
    by_cases h : p.1 = i
    · simp [ainsert, alookup, h]
    · simp [ainsert, alookup, h, ih]

theorem alookup_ainsert_ne (l : List (κ × α)) {i j : κ} (v : α) (h : j ≠ i) :
    alookup (ainsert l i v) j = alookup l j := by
  induction l with
  | nil => simp [ainsert, alookup, Ne.symm h]
  | cons p t ih =>
    by_cases hp : p.1 = i
    · subst hp
      simp [ainsert, alookup, Ne.symm h]
    · by_cases hj : p.1 = j <;> simp [ainsert, alookup, hp, hj, ih, h, Ne.symm h]

theorem mem_ainsert {q : κ × α} : ∀ (l : List (κ × α)) (i : κ) (v : α),
    q ∈ ainsert l i v → q = (i, v) ∨ q ∈ l := by
  intro l
  induction l with
  | nil => intro i v h; simp [ainsert] at h; left; exact h
  | cons p t ih =>
    intro i v h
    by_cases hp : p.1 = i
    · simp only [ainsert, hp, if_pos] at h
      rcases List.mem_cons.mp h with h | h
      · left; exact h
      · right; exact List.mem_cons_of_mem _ h
    · simp only [ainsert, hp, if_neg, not_false_iff] at h
      rcases List.mem_cons.mp h with h | h
      · right; exact h ▸ List.mem_cons_self _ _
      · rcases ih i v h with h | h
        · left; exact h
        · right; exact List.mem_cons_of_mem _ h

theorem ainsert_mem_self (l : List (κ × α)) (i : κ) (v : α) : (i, v) ∈ ainsert l i v := by
  induction l with
  | nil => simp [ainsert]
  | cons p t ih =>
    by_cases hp : p.1 = i <;> simp [ainsert, hp, ih]

theorem mem_ainsert_of_ne {q : κ × α} {l : List (κ × α)} {i : κ} {v : α}
    (h : q.1 ≠ i) (hq : q ∈ l) : q ∈ ainsert l i v := by
  induction l with
  | nil => cases hq
  | cons p t ih =>
    by_cases hp : p.1 = i
    · simp only [ainsert, hp, if_pos]
      rcases List.mem_cons.mp hq with rfl | hq
      · exact absurd hp h
      · exact List.mem_cons_of_mem _ hq
    · simp only [ainsert, hp, if_neg, not_false_iff]
      rcases List.mem_cons.mp hq with rfl | hq
      · exact List.mem_cons_self _ _
      · exact List.mem_cons_of_mem _ (ih hq)

theorem alookup_mem : ∀ {l : List (κ × α)} {i : κ} {v : α},
    alookup l i = some v → (i, v) ∈ l := by
  intro l
  induction l with
  | nil => intro i v h; simp [alookup] at h
  | cons p t ih =>
    intro i v h
    by_cases hp : p.1 = i
    · simp only [alookup, hp, if_pos, Option.some.injEq] at h
      subst h; subst hp
      exact List.mem_cons_self _ _
    · simp only [alookup, hp, if_neg, not_false_iff] at h
      exact List.mem_cons_of_mem _ (ih h)

theorem alookup_eq_none : ∀ {l : List (κ × α)} {i : κ},
    alookup l i = none ↔ ∀ q ∈ l, q.1 ≠ i := by
  intro l
  induction l with
  | nil => intro i; simp [alookup]
  | cons p t ih =>
    intro i
    by_cases hp : p.1 = i <;> simp [alookup, hp, ih]

theorem alookup_isSome_of_mem {l : List (κ × α)} {q : κ × α} (h : q ∈ l) :
    ∃ w, alookup l q.1 = some w := by
  induction l with
  | nil => cases h
  | cons p t ih =>
    by_cases hp : p.1 = q.1
    · exact ⟨p.2, by simp [alookup, hp]⟩
    · rcases List.mem_cons.mp h with rfl | h
      · exact absurd rfl hp
      · simpa [alookup, hp] using ih h

theorem aerase_sublist : ∀ (l : List (κ × α)) (i : κ), List.Sublist (aerase l i) l := by
  intro l
  induction l with
  | nil => intro i; simp [aerase]
  | cons p t ih =>
    intro i
    by_cases hp : p.1 = i
    · simp only [aerase, hp, if_pos]
      exact List.sublist_cons_self p t
    · simpa [aerase, hp] using (ih i).cons₂ p

theorem mem_aerase {q : κ × α} {l : List (κ × α)} {i : κ} (h : q ∈ aerase l i) : q ∈ l :=
  (aerase_sublist l i).mem h

theorem alookup_aerase_ne (l : List (κ × α)) {i j : κ} (h : j ≠ i) :
    alookup (aerase l i) j = alookup l j := by
  induction l with
  | nil => simp [aerase]
  | cons p t ih =>
    by_cases hp : p.1 = i
    · subst hp
      simp [aerase, alookup, Ne.symm h]
    · by_cases hj : p.1 = j <;> simp [aerase, alookup, hp, hj, ih, h, Ne.symm h]

theorem keys_ainsert {l : List (κ × α)} {i k : κ} {v : α} :
    k ∈ (ainsert l i v).map Prod.fst ↔ k = i ∨ k ∈ l.map Prod.fst := by
  constructor
  · intro h
    rcases List.mem_map.mp h with ⟨q, hq, rfl⟩
    rcases mem_ainsert _ _ _ hq with rfl | hq
    · left; rfl
    · right; exact List.mem_map_of_mem _ hq
  · intro h
    rcases h with rfl | h
    · exact List.mem_map_of_mem _ (ainsert_mem_self l k v)
    · rcases List.mem_map.mp h with ⟨q, hq, rfl⟩
      by_cases hqi : q.1 = i
      · rw [hqi]
        exact List.mem_map_of_mem _ (ainsert_mem_self l i v)
      · exact List.mem_map_of_mem _ (mem_ainsert_of_ne hqi hq)

theorem ainsert_keys_nodup {l : List (κ × α)} {i : κ} {v : α}
    (h : (l.map Prod.fst).Nodup) : ((ainsert l i v).map Prod.fst).Nodup := by
  induction l with
  | nil => simp [ainsert]
  | cons p t ih =>
    simp only [List.map_cons, List.nodup_cons] at h
    by_cases hp : p.1 = i
    · simp only [ainsert, hp, if_pos, List.map_cons, List.nodup_cons]
      exact ⟨hp ▸ h.1, h.2⟩
    · simp only [ainsert, hp, if_neg, not_false_iff, List.map_cons, List.nodup_cons]
      refine ⟨fun hm => ?_, ih h.2⟩
      rcases keys_ainsert.mp hm with rfl | hm
      · exact hp rfl
      · exact h.1 hm

end AssocLemmas



/-! ## Ring-index lemmas -/

theorem bool_not_true {b : Bool} (h : ¬ b = true) : b = false := by
  cases b
  · rfl
  · exact absurd rfl h

theorem strLt_flip {a k : String} (h1 : strLt k a = false) (h2 : k ≠ a) :
    strLt a k = true := by
  rcases strLt_total k a with rfl | h | h
  · exact absurd rfl h2
  · rw [h] at h1; cases h1
  · exact h

theorem RSorted_keys_nodup {m : List (String × String)} (h : RSorted m) :
    (m.map Prod.fst).Nodup := by
  have hp : (m.map Prod.fst).Pairwise (fun a b => strLt a b = true) :=
    (List.pairwise_map).mpr h
  exact hp.imp (fun hab => strLt_ne hab)

theorem ringInsert_cons_lt {p : String × String} {t : List (String × String)}
    {k v : String} (h : strLt k p.1 = true) :
    ringInsert (p :: t) k v = (k, v) :: p :: t := by
  simp [ringInsert, h]

theorem ringInsert_cons_eq {p : String × String} {t : List (String × String)}
    {k v : String} (h : k = p.1) :
    ringInsert (p :: t) k v = (k, v) :: t := by
  subst h
  simp [ringInsert, strLt_irrefl]

theorem ringInsert_cons_gt {p : String × String} {t : List (String × String)}
    {k v : String} (h1 : strLt k p.1 = false) (h2 : k ≠ p.1) :
    ringInsert (p :: t) k v = p :: ringInsert t k v := by
  simp [ringInsert, h1, h2]

theorem ringErase_cons_eq {p : String × String} {t : List (String × String)}
    {k : String} (h : k = p.1) : ringErase (p :: t) k = t := by
  simp [ringErase, h]

theorem ringErase_cons_ne {p : String × String} {t : List (String × String)}
    {k : String} (h : k ≠ p.1) : ringErase (p :: t) k = p :: ringErase t k := by
  simp [ringErase, h]

theorem mem_ringInsert_weak {q : String × String} :
    ∀ (m : List (String × String)) (k v : String),
    q ∈ ringInsert m k v → q = (k, v) ∨ q ∈ m := by
  intro m
  induction m with
  | nil => intro k v h; simp [ringInsert] at h; left; exact h
  | cons p t ih =>
    intro k v h
    by_cases h2 : k = p.1
    · rw [ringInsert_cons_eq h2] at h
      rcases List.mem_cons.mp h with h | h
      · left; exact h
      · right; exact List.mem_cons_of_mem _ h
    · by_cases h1 : strLt k p.1 = true
      · rw [ringInsert_cons_lt h1] at h
        rcases List.mem_cons.mp h with h | h
        · left; exact h
        · right; exact h
      · rw [ringInsert_cons_gt (bool_not_true h1) h2] at h
        rcases List.mem_cons.mp h with h | h
        · right; exact h ▸ List.mem_cons_self _ _
        · rcases ih k v h with h | h
          · left; exact h
          · right; exact List.mem_cons_of_mem _ h

theorem mem_ringInsert_self : ∀ (m : List (String × String)) (k v : String),
    (k, v) ∈ ringInsert m k v := by
  intro m
  induction m with
  | nil => intro k v; simp [ringInsert]
  | cons p t ih =>
    intro k v
    by_cases h2 : k = p.1
    · rw [ringInsert_cons_eq h2]
      exact List.mem_cons_self _ _
    · by_cases h1 : strLt k p.1 = true
      · rw [ringInsert_cons_lt h1]
        exact List.mem_cons_self _ _
      · rw [ringInsert_cons_gt (bool_not_true h1) h2]
        exact List.mem_cons_of_mem _ (ih k v)

theorem mem_ringInsert_of_ne {q : String × String} {m : List (String × String)}
    {k v : String} (h : q.1 ≠ k) (hq : q ∈ m) : q ∈ ringInsert m k v := by
  induction m with
  | nil => cases hq
  | cons p t ih =>
    by_cases h2 : k = p.1
    · rw [ringInsert_cons_eq h2]
      rcases List.mem_cons.mp hq with rfl | hq
      · exact absurd h2.symm h
      · exact List.mem_cons_of_mem _ hq
    · by_cases h1 : strLt k p.1 = true
      · rw [ringInsert_cons_lt h1]
        exact List.mem_cons_of_mem _ hq
      · rw [ringInsert_cons_gt (bool_not_true h1) h2]
        rcases List.mem_cons.mp hq with rfl | hq
        · exact List.mem_cons_self _ _
        · exact List.mem_cons_of_mem _ (ih hq)

theorem keys_ringInsert {m : List (String × String)} {k v k' : String} :
    k' ∈ (ringInsert m k v).map Prod.fst ↔ k' = k ∨ k' ∈ m.map Prod.fst := by
  constructor
  · intro h
    rcases List.mem_map.mp h with ⟨q, hq, rfl⟩
    rcases mem_ringInsert_weak m k v hq with rfl | hq
    · left; rfl
    · right; exact List.mem_map_of_mem _ hq
  · intro h
    rcases h with rfl | h
    · exact List.mem_map_of_mem _ (mem_ringInsert_self m k' v)
    · rcases List.mem_map.mp h with ⟨q, hq, rfl⟩
      by_cases hqk : q.1 = k
      · rw [hqk]
        exact List.mem_map_of_mem _ (mem_ringInsert_self m k v)
      · exact List.mem_map_of_mem _ (mem_ringInsert_of_ne hqk hq)

theorem ringInsert_sorted {m : List (String × String)} {k v : String} (h : RSorted m) :
    RSorted (ringInsert m k v) := by
  induction m with
  | nil =>
    simp only [ringInsert, RSorted]
    exact List.pairwise_singleton _ _
  | cons p t ih =>
    rw [RSorted, List.pairwise_cons] at h
    obtain ⟨hp, ht⟩ := h
    by_cases h2 : k = p.1
    · rw [ringInsert_cons_eq h2, RSorted, List.pairwise_cons]
      exact ⟨fun q hq => h2 ▸ hp q hq, ht⟩
    · by_cases h1 : strLt k p.1 = true
      · rw [ringInsert_cons_lt h1, RSorted, List.pairwise_cons]
        refine ⟨fun q hq => ?_, List.pairwise_cons.mpr ⟨hp, ht⟩⟩
        rcases List.mem_cons.mp hq with rfl | hq
        · exact h1
        · exact strLt_trans h1 (hp q hq)
      · rw [ringInsert_cons_gt (bool_not_true h1) h2, RSorted, List.pairwise_cons]
        refine ⟨fun q hq => ?_, ih ht⟩
        rcases mem_ringInsert_weak t k v hq with rfl | hq
        · exact strLt_flip (bool_not_true h1) h2
        · exact hp q hq

theorem mem_ringInsert_sorted {m : List (String × String)} (hs : RSorted m)
    {q : String × String} {k v : String} :
    q ∈ ringInsert m k v ↔ q = (k, v) ∨ (q ∈ m ∧ q.1 ≠ k) := by
  induction m with
  | nil => simp [ringInsert]
  | cons p t ih =>
    rw [RSorted, List.pairwise_cons] at hs
    obtain ⟨hp, ht⟩ := hs
    constructor
    · intro h
      by_cases h2 : k = p.1
      · rw [ringInsert_cons_eq h2] at h
        rcases List.mem_cons.mp h with h | h
        · left; exact h
        · right
          refine ⟨List.mem_cons_of_mem _ h, fun he => ?_⟩
          have hlt := hp q h
          rw [he, h2, strLt_irrefl] at hlt
          cases hlt
      · by_cases h1 : strLt k p.1 = true
        · rw [ringInsert_cons_lt h1] at h
          rcases List.mem_cons.mp h with h | h
          · left; exact h
          · right
            refine ⟨h, fun he => ?_⟩
            rcases List.mem_cons.mp h with rfl | hq
            · exact strLt_ne h1 he.symm
            · have := strLt_trans h1 (hp q hq)
              rw [he] at this
              rw [strLt_irrefl] at this
              cases this
        · rw [ringInsert_cons_gt (bool_not_true h1) h2] at h
          rcases List.mem_cons.mp h with rfl | h
          · right
            exact ⟨List.mem_cons_self _ _, fun he => h2 he.symm⟩
          · rcases (ih ht).mp h with h | ⟨hq, hne⟩
            · left; exact h
            · right; exact ⟨List.mem_cons_of_mem _ hq, hne⟩
    · intro h
      rcases h with rfl | ⟨hq, hne⟩
      · exact mem_ringInsert_self _ _ _
      · exact mem_ringInsert_of_ne hne hq

theorem map_fst_ringInsert_of_mem {m : List (String × String)} {k v : String}
    (hs : RSorted m) (hk : k ∈ m.map Prod.fst) :
    (ringInsert m k v).map Prod.fst = m.map Prod.fst := by
  induction m with
  | nil => cases hk
  | cons p t ih =>
    rw [RSorted, List.pairwise_cons] at hs
    obtain ⟨hp, ht⟩ := hs
    by_cases h2 : k = p.1
    · rw [ringInsert_cons_eq h2]
      simp [h2]
    · have hk' : k ∈ t.map Prod.fst := by
        rcases List.mem_map.mp hk with ⟨q, hq, rfl⟩
        rcases List.mem_cons.mp hq with rfl | hq
        · exact absurd rfl h2
        · exact List.mem_map_of_mem _ hq
      have h1 : ¬ strLt k p.1 = true := by
        intro h1
        rcases List.mem_map.mp hk' with ⟨q, hq, rfl⟩
        have := strLt_trans (hp q hq) h1
        rw [strLt_irrefl] at this
        cases this
      rw [ringInsert_cons_gt (bool_not_true h1) h2, List.map_cons, List.map_cons,
        ih ht hk']

theorem length_ringInsert_of_mem {m : List (String × String)} {k v : String}
    (hs : RSorted m) (hk : k ∈ m.map Prod.fst) :
    (ringInsert m k v).length = m.length := by
  have h := congrArg List.length (@map_fst_ringInsert_of_mem m k v hs hk)
  simpa using h

theorem length_ringInsert_of_not_mem {m : List (String × String)} {k v : String}
    (hk : ¬ k ∈ m.map Prod.fst) :
    (ringInsert m k v).length = m.length + 1 := by
  induction m with
  | nil => simp [ringInsert]
  | cons p t ih =>
    simp only [List.map_cons, List.mem_cons, not_or] at hk
    by_cases h1 : strLt k p.1 = true
    · rw [ringInsert_cons_lt h1]
      rfl
    · rw [ringInsert_cons_gt (bool_not_true h1) hk.1, List.length_cons,
        List.length_cons, ih hk.2]

theorem ringErase_sublist : ∀ (m : List (String × String)) (k : String),
    List.Sublist (ringErase m k) m := by
  intro m
  induction m with
  | nil => intro k; simp [ringErase]
  | cons p t ih =>
    intro k
    by_cases h1 : k = p.1
    · rw [ringErase_cons_eq h1]
      exact List.sublist_cons_self p t
    · rw [ringErase_cons_ne h1]
      exact (ih k).cons₂ p

theorem mem_ringErase_weak {q : String × String} {m : List (String × String)}
    {k : String} (h : q ∈ ringErase m k) : q ∈ m :=
  (ringErase_sublist m k).mem h

theorem ringErase_sorted {m : List (String × String)} {k : String} (h : RSorted m) :
    RSorted (ringErase m k) :=
  List.Pairwise.sublist (ringErase_sublist m k) h

theorem ringErase_of_not_mem {m : List (String × String)} {k : String}
    (hk : ¬ k ∈ m.map Prod.fst) : ringErase m k = m := by
  induction m with
  | nil => rfl
  | cons p t ih =>
    simp only [List.map_cons, List.mem_cons, not_or] at hk
    rw [ringErase_cons_ne hk.1, ih hk.2]

theorem mem_ringErase {m : List (String × String)} (hnd : (m.map Prod.fst).Nodup)
    {q : String × String} {k : String} :
    q ∈ ringErase m k ↔ q ∈ m ∧ q.1 ≠ k := by
  induction m with
  | nil => simp [ringErase]
  | cons p t ih =>
    simp only [List.map_cons, List.nodup_cons] at hnd
    by_cases h1 : k = p.1
    · rw [ringErase_cons_eq h1]
      constructor
      · intro h
        refine ⟨List.mem_cons_of_mem _ h, fun he => ?_⟩
        apply hnd.1
        rw [← h1, ← he]
        exact List.mem_map_of_mem Prod.fst h
      · rintro ⟨h, hne⟩
        rcases List.mem_cons.mp h with rfl | h
        · exact absurd h1.symm hne
        · exact h
    · rw [ringErase_cons_ne h1]
      constructor
      · intro h
        rcases List.mem_cons.mp h with rfl | h
        · exact ⟨List.mem_cons_self _ _, fun he => h1 he.symm⟩
        · have := (ih hnd.2).mp h
          exact ⟨List.mem_cons_of_mem _ this.1, this.2⟩
      · rintro ⟨h, hne⟩
        rcases List.mem_cons.mp h with rfl | h
        · exact List.mem_cons_self _ _
        · exact List.mem_cons_of_mem _ ((ih hnd.2).mpr ⟨h, hne⟩)

theorem length_ringErase_of_mem {m : List (String × String)} {k : String}
    (hk : k ∈ m.map Prod.fst) :
    m.length = (ringErase m k).length + 1 := by
  induction m with
  | nil => cases hk
  | cons p t ih =>
    by_cases h1 : k = p.1
    · rw [ringErase_cons_eq h1]
      rfl
    · have hk' : k ∈ t.map Prod.fst := by
        rcases List.mem_map.mp hk with ⟨q, hq, rfl⟩
        rcases List.mem_cons.mp hq with rfl | hq
        · exact absurd rfl h1
        · exact List.mem_map_of_mem _ hq
      rw [ringErase_cons_ne h1, List.length_cons, List.length_cons, ih hk']

theorem keys_ringErase {m : List (String × String)} (hnd : (m.map Prod.fst).Nodup)
    {k k' : String} :
    k' ∈ (ringErase m k).map Prod.fst ↔ k' ∈ m.map Prod.fst ∧ k' ≠ k := by
  constructor
  · intro h
    rcases List.mem_map.mp h with ⟨q, hq, rfl⟩
    have h2 := (mem_ringErase hnd).mp hq
    exact ⟨List.mem_map_of_mem _ h2.1, h2.2⟩
  · rintro ⟨h, hne⟩
    rcases List.mem_map.mp h with ⟨q, hq, rfl⟩
    exact List.mem_map_of_mem _ ((mem_ringErase hnd).mpr ⟨hq, hne⟩)


/-! ## insertPairs lemmas -/

theorem insertPairs_nil (ring : List (String × String)) : insertPairs ring [] = ring := rfl

theorem insertPairs_cons (ring : List (String × String)) (p : String × String)
    (ps : List (String × String)) :
    insertPairs ring (p :: ps) = insertPairs (ringInsert ring p.1 p.2) ps := rfl

theorem insertPairs_append (ring ps qs : List (String × String)) :
    insertPairs ring (ps ++ qs) = insertPairs (insertPairs ring ps) qs :=
  List.foldl_append ..

theorem insertPairs_sorted {ps ring : List (String × String)} (hs : RSorted ring) :
    RSorted (insertPairs ring ps) := by
  induction ps generalizing ring with
  | nil => exact hs
  | cons p t ih => exact ih (ringInsert_sorted hs)

theorem mem_insertPairs_weak {q : String × String} :
    ∀ {ps ring : List (String × String)}, q ∈ insertPairs ring ps → q ∈ ps ∨ q ∈ ring := by
  intro ps
  induction ps with
  | nil => intro ring h; right; exact h
  | cons p t ih =>
    intro ring h
    rw [insertPairs_cons] at h
    rcases ih h with h | h
    · left; exact List.mem_cons_of_mem _ h
    · rcases mem_ringInsert_weak ring p.1 p.2 h with h | h
      · left
        rw [show (p.1, p.2) = p from rfl] at h
        exact h ▸ List.mem_cons_self _ _
      · right; exact h

theorem keys_insertPairs {k : String} :
    ∀ {ps ring : List (String × String)},
    k ∈ (insertPairs ring ps).map Prod.fst ↔
      k ∈ ring.map Prod.fst ∨ k ∈ ps.map Prod.fst := by
  intro ps
  induction ps with
  | nil => intro ring; simp [insertPairs_nil]
  | cons p t ih =>
    intro ring
    rw [insertPairs_cons, ih]
    constructor
    · intro h
      rcases h with h | h
      · rcases keys_ringInsert.mp h with rfl | h
        · right; exact List.mem_map_of_mem Prod.fst (List.mem_cons_self p t)
        · left; exact h
      · right
        simp only [List.map_cons, List.mem_cons]
        right; exact h
    · intro h
      rcases h with h | h
      · left; exact keys_ringInsert.mpr (Or.inr h)
      · simp only [List.map_cons, List.mem_cons] at h
        rcases h with rfl | h
        · left; exact keys_ringInsert.mpr (Or.inl rfl)
        · right; exact h

theorem mem_insertPairs_of_ne {q : String × String} :
    ∀ {ps ring : List (String × String)}, q ∈ ring → ¬ q.1 ∈ ps.map Prod.fst →
    q ∈ insertPairs ring ps := by
  intro ps
  induction ps with
  | nil => intro ring hq _; exact hq
  | cons p t ih =>
    intro ring hq h
    simp only [List.map_cons, List.mem_cons, not_or] at h
    rw [insertPairs_cons]
    exact ih (mem_ringInsert_of_ne h.1 hq) h.2

theorem mem_insertPairs_self {q : String × String} :
    ∀ {ps ring : List (String × String)}, (ps.map Prod.fst).Nodup → q ∈ ps →
    q ∈ insertPairs ring ps := by
  intro ps
  induction ps with
  | nil => intro ring _ h; cases h
  | cons p t ih =>
    intro ring hnd hq
    simp only [List.map_cons, List.nodup_cons] at hnd
    rw [insertPairs_cons]
    rcases List.mem_cons.mp hq with rfl | hq
    · exact mem_insertPairs_of_ne (mem_ringInsert_self ring q.1 q.2) hnd.1
    · exact ih hnd.2 hq

theorem mem_insertPairs_sorted {q : String × String} :
    ∀ {ps ring : List (String × String)}, RSorted ring → (ps.map Prod.fst).Nodup →
    (q ∈ insertPairs ring ps ↔ q ∈ ps ∨ (q ∈ ring ∧ ¬ q.1 ∈ ps.map Prod.fst)) := by
  intro ps
  induction ps with
  | nil => intro ring _ _; simp [insertPairs_nil]
  | cons p t ih =>
    intro ring hs hnd
    simp only [List.map_cons, List.nodup_cons] at hnd
    rw [insertPairs_cons, ih (ringInsert_sorted hs) hnd.2]
    constructor
    · intro h
      rcases h with h | ⟨hq, hk⟩
      · left; exact List.mem_cons_of_mem _ h
      · rcases (mem_ringInsert_sorted hs).mp hq with rfl | ⟨hq2, hne⟩
        · left; exact List.mem_cons_self _ _
        · right
          refine ⟨hq2, ?_⟩
          simp only [List.map_cons, List.mem_cons, not_or]
          exact ⟨hne, hk⟩
    · intro h
      rcases h with h | ⟨hq, hk⟩
      · rcases List.mem_cons.mp h with rfl | h
        · right
          exact ⟨mem_ringInsert_self ring q.1 q.2, hnd.1⟩
        · left; exact h
      · simp only [List.map_cons, List.mem_cons, not_or] at hk
        right
        exact ⟨mem_ringInsert_of_ne hk.1 hq, hk.2⟩

theorem length_insertPairs :
    ∀ {ps ring : List (String × String)}, RSorted ring → (ps.map Prod.fst).Nodup →
    (∀ p ∈ ps, ¬ p.1 ∈ ring.map Prod.fst) →
    (insertPairs ring ps).length = ring.length + ps.length := by
  intro ps
  induction ps with
  | nil => intro ring _ _ _; rfl
  | cons p t ih =>
    intro ring hs hnd hdisj
    simp only [List.map_cons, List.nodup_cons] at hnd
    rw [insertPairs_cons]
    rw [ih (ringInsert_sorted hs) hnd.2 ?_]
    · rw [length_ringInsert_of_not_mem (hdisj p (List.mem_cons_self p t))]
      simp only [List.length_cons]
      omega
    · intro q hq hk
      rcases keys_ringInsert.mp hk with he | hk2
      · exact hnd.1 (he ▸ List.mem_map_of_mem Prod.fst hq)
      · exact hdisj q (List.mem_cons_of_mem _ hq) hk2

/-! ## Cache-purity and replica-loop normal forms -/

theorem cacheZero_pure {kc : List (String × List (Nat × String))} {id : String}
    (h : KCPure kc) : CachePure id (cacheZero kc id) := by
  rw [cacheZero]
  cases hl : alookup kc id with
  | none => intro p hp; cases hp
  | some c =>
    intro p hp
    exact h (id, c) (alookup_mem hl) p hp

theorem cacheStep_pure {id : String} {c : List (Nat × String)} {i : Nat}
    (h : CachePure id c) : CachePure id (cacheStep id c i) := by
  rw [cacheStep]
  cases hl : alookup c i with
  | some k => exact h
  | none =>
    intro p hp
    rcases mem_ainsert _ _ _ hp with rfl | hp
    · rfl
    · exact h p hp

theorem cacheStep_superset {id : String} {c : List (Nat × String)} {i : Nat}
    {q : Nat × String} (hq : q ∈ c) : q ∈ cacheStep id c i := by
  rw [cacheStep]
  cases hl : alookup c i with
  | some k => exact hq
  | none =>
    refine mem_ainsert_of_ne (fun he => ?_) hq
    rw [alookup_eq_none] at hl
    exact hl q hq he

theorem cacheStep_sub {id : String} {c : List (Nat × String)} {i : Nat}
    {q : Nat × String} (hq : q ∈ cacheStep id c i) : q ∈ c ∨ q = (i, hkey id i) := by
  rw [cacheStep] at hq
  cases hl : alookup c i with
  | some k => rw [hl] at hq; left; exact hq
  | none =>
    rw [hl] at hq
    rcases mem_ainsert _ _ _ hq with h | h
    · right; exact h
    · left; exact h

theorem cacheStep_covers (id : String) (c : List (Nat × String)) (i : Nat) :
    ∃ k, (i, k) ∈ cacheStep id c i := by
  rw [cacheStep]
  cases hl : alookup c i with
  | some k => exact ⟨k, alookup_mem hl⟩
  | none => exact ⟨hkey id i, ainsert_mem_self _ _ _⟩

theorem cacheFold_pure {id : String} {is : List Nat} {c : List (Nat × String)}
    (h : CachePure id c) : CachePure id (cacheFold id c is) := by
  induction is generalizing c with
  | nil => exact h
  | cons i t ih => exact ih (cacheStep_pure h)

theorem cacheFold_superset {id : String} {is : List Nat} {c : List (Nat × String)}
    {q : Nat × String} (hq : q ∈ c) : q ∈ cacheFold id c is := by
  induction is generalizing c with
  | nil => exact hq
  | cons i t ih => exact ih (cacheStep_superset hq)

theorem cacheFold_sub {id : String} {is : List Nat} {c : List (Nat × String)}
    {q : Nat × String} (hq : q ∈ cacheFold id c is) : q ∈ c ∨ q.1 ∈ is := by
  induction is generalizing c with
  | nil => left; exact hq
  | cons i t ih =>
    rcases ih hq with h | h
    · rcases cacheStep_sub h with h | rfl
      · left; exact h
      · right; exact List.mem_cons_self _ _
    · right; exact List.mem_cons_of_mem _ h

theorem cacheFold_covers {id : String} {is : List Nat} {c : List (Nat × String)} :
    ∀ i ∈ is, ∃ k, (i, k) ∈ cacheFold id c is := by
  induction is generalizing c with
  | nil => intro i hi; cases hi
  | cons j t ih =>
    intro i hi
    rcases List.mem_cons.mp hi with rfl | hi
    · obtain ⟨k, hk⟩ := cacheStep_covers id c i
      refine ⟨k, ?_⟩
      show (i, k) ∈ cacheFold id (cacheStep id c i) t
      exact cacheFold_superset hk
    · exact ih i hi

theorem replicaStep_eq_pure {id : String} {c : List (Nat × String)}
    {ring : List (String × String)} {i : Nat} (hc : CachePure id c) :
    replicaStep id (c, ring) i = (cacheStep id c i, ringInsert ring (hkey id i) id) := by
  rw [replicaStep, cacheStep]
  cases hl : alookup c i with
  | some k =>
    have : k = hkey id i := hc (i, k) (alookup_mem hl)
    rw [this]
  | none => rfl

theorem replicaFold_eq {id : String} :
    ∀ (is : List Nat) (c : List (Nat × String)) (ring : List (String × String)),
    CachePure id c →
    is.foldl (replicaStep id) (c, ring) =
      (cacheFold id c is, insertPairs ring (is.map (fun i => (hkey id i, id)))) := by
  intro is
  induction is with
  | nil => intro c ring _; rfl
  | cons i t ih =>
    intro c ring hc
    have h1 : List.foldl (replicaStep id) (c, ring) (i :: t) =
        List.foldl (replicaStep id) (cacheStep id c i, ringInsert ring (hkey id i) id) t := by
      rw [List.foldl_cons, replicaStep_eq_pure hc]
    rw [h1, ih _ _ (cacheStep_pure hc)]
    rfl

theorem addReplicas_eq_pure {reps : Nat} {c : List (Nat × String)}
    {ring : List (String × String)} {id : String} (hc : CachePure id c) :
    addReplicas reps c ring id =
      (cacheFold id c (List.range reps), insertPairs ring (idPairs id reps)) := by
  rw [addReplicas, replicaFold_eq _ _ _ hc, idPairs]


/-! ## Operation normal forms -/

theorem KCPure_ainsert {kc : List (String × List (Nat × String))} {id : String}
    {c : List (Nat × String)} (h : KCPure kc) (hc : CachePure id c) :
    KCPure (ainsert kc id c) := by
  intro q hq
  rcases mem_ainsert _ _ _ hq with rfl | hq
  · exact hc
  · exact h q hq

theorem KCPure_aerase {kc : List (String × List (Nat × String))} {id : String}
    (h : KCPure kc) : KCPure (aerase kc id) :=
  fun q hq => h q (mem_aerase hq)

theorem add_eq {lc : LightCycle} {id : String} (hkc : KCPure lc.keycache) :
    add lc id =
      if (addMid lc id).size < (addMid lc id).resources.length
      then rebalance (addMid lc id) else addMid lc id := by
  have hc : CachePure id ((alookup lc.keycache id).getD []) := cacheZero_pure hkc
  simp only [add, addReplicas_eq_pure hc, addMid, cacheZero]

theorem cacheRingStep_eq {reps : Nat} {kc : List (String × List (Nat × String))}
    {ring : List (String × String)} {id : String} (hkc : KCPure kc) :
    cacheRingStep reps (kc, ring) id =
      (ainsert kc id (cacheFold id (cacheZero kc id) (List.range reps)),
       insertPairs ring (idPairs id reps)) := by
  have hc : CachePure id ((alookup kc id).getD []) := cacheZero_pure hkc
  simp only [cacheRingStep, addReplicas_eq_pure hc, cacheZero]

theorem rebFold_eq {reps : Nat} :
    ∀ (ids : List String) (kc : List (String × List (Nat × String)))
      (ring : List (String × String)), KCPure kc →
    ids.foldl (cacheRingStep reps) (kc, ring) =
      (rebCache kc ids reps, insertPairs ring (allPairs ids reps)) := by
  intro ids
  induction ids with
  | nil => intro kc ring _; rfl
  | cons id t ih =>
    intro kc ring hkc
    have hpure : KCPure (ainsert kc id (cacheFold id (cacheZero kc id) (List.range reps))) :=
      KCPure_ainsert hkc (cacheFold_pure (cacheZero_pure hkc))
    rw [List.foldl_cons, cacheRingStep_eq hkc, ih _ _ hpure]
    simp only [rebCache, allPairs, List.flatMap_cons, List.foldl_cons, insertPairs_append]

theorem rebalance_eq {lc : LightCycle} (hkc : KCPure lc.keycache) :
    rebalance lc =
      { replicas := lc.resources.length + REPLICAS_PAD
        size := lc.resources.length + SIZE_PAD
        resources := lc.resources
        keycache := rebCache lc.keycache lc.resources (lc.resources.length + REPLICAS_PAD)
        hashring := insertPairs [] (allPairs lc.resources (lc.resources.length + REPLICAS_PAD)) } := by
  simp only [rebalance]
  rw [rebFold_eq _ _ _ hkc]

theorem rebCache_pure {reps : Nat} :
    ∀ {ids : List String} {kc : List (String × List (Nat × String))}, KCPure kc →
    KCPure (rebCache kc ids reps) := by
  intro ids
  induction ids with
  | nil => intro kc h; exact h
  | cons id t ih =>
    intro kc h
    rw [rebCache, List.foldl_cons, ← rebCache]
    exact ih (KCPure_ainsert h (cacheFold_pure (cacheZero_pure h)))

theorem rebCache_lookup_not_mem {reps : Nat} :
    ∀ {ids : List String} {kc : List (String × List (Nat × String))} {id : String},
    ¬ id ∈ ids → alookup (rebCache kc ids reps) id = alookup kc id := by
  intro ids
  induction ids with
  | nil => intro kc id _; rfl
  | cons j t ih =>
    intro kc id h
    simp only [List.mem_cons, not_or] at h
    rw [rebCache, List.foldl_cons, ← rebCache, ih h.2,
      alookup_ainsert_ne _ _ h.1]

theorem rebCache_covers {reps : Nat} :
    ∀ {ids : List String} {kc : List (String × List (Nat × String))},
    ∀ id ∈ ids, ∃ c, alookup (rebCache kc ids reps) id = some c ∧
      ∀ i, i < reps → ∃ k, (i, k) ∈ c := by
  intro ids
  induction ids with
  | nil => intro kc id h; cases h
  | cons j t ih =>
    intro kc id hid
    rw [rebCache, List.foldl_cons, ← rebCache]
    by_cases hmem : id ∈ t
    · exact ih id hmem
    · rcases List.mem_cons.mp hid with rfl | hid
      · refine ⟨cacheFold id (cacheZero kc id) (List.range reps), ?_, ?_⟩
        · rw [rebCache_lookup_not_mem hmem, alookup_ainsert_self]
        · intro i hi
          exact cacheFold_covers i (List.mem_range.mpr hi)
      · exact absurd hid hmem

theorem rebCache_mem_sub {reps : Nat} :
    ∀ {ids : List String} {kc : List (String × List (Nat × String))}
      {q : String × List (Nat × String)},
    q ∈ rebCache kc ids reps → q ∈ kc ∨ q.1 ∈ ids := by
  intro ids
  induction ids with
  | nil => intro kc q h; left; exact h
  | cons j t ih =>
    intro kc q h
    rw [rebCache, List.foldl_cons, ← rebCache] at h
    rcases ih h with h | h
    · rcases mem_ainsert _ _ _ h with rfl | h
      · right; exact List.mem_cons_self _ _
      · left; exact h
    · right; exact List.mem_cons_of_mem _ h

theorem cacheZero_bound {kc : List (String × List (Nat × String))} {id : String} {B : Nat}
    (hb : ∀ q ∈ kc, ∀ r ∈ q.2, r.1 < B) :
    ∀ r ∈ cacheZero kc id, r.1 < B := by
  rw [cacheZero]
  cases hl : alookup kc id with
  | none => intro r hr; cases hr
  | some c =>
    intro r hr
    exact hb (id, c) (alookup_mem hl) r hr

theorem cacheFold_bound {id : String} {c : List (Nat × String)} {is : List Nat} {B : Nat}
    (hb : ∀ r ∈ c, r.1 < B) (his : ∀ i ∈ is, i < B) :
    ∀ r ∈ cacheFold id c is, r.1 < B := by
  intro r hr
  rcases cacheFold_sub hr with h | h
  · exact hb r h
  · exact his r.1 h

theorem rebCache_bound {reps B : Nat} (hreps : reps ≤ B) :
    ∀ {ids : List String} {kc : List (String × List (Nat × String))},
    (∀ q ∈ kc, ∀ r ∈ q.2, r.1 < B) →
    ∀ q ∈ rebCache kc ids reps, ∀ r ∈ q.2, r.1 < B := by
  intro ids
  induction ids with
  | nil => intro kc hb; exact hb
  | cons j t ih =>
    intro kc hb
    rw [rebCache, List.foldl_cons, ← rebCache]
    refine ih (fun q hq => ?_)
    rcases mem_ainsert _ _ _ hq with rfl | hq
    · exact cacheFold_bound (cacheZero_bound hb)
        (fun i hi => lt_of_lt_of_le (List.mem_range.mp hi) hreps)
    · exact hb q hq


/-! ## allPairs and eraseVals lemmas -/

theorem mem_idPairs {p : String × String} {id : String} {reps : Nat} :
    p ∈ idPairs id reps ↔ ∃ i, i < reps ∧ p = (hkey id i, id) := by
  simp only [idPairs, List.mem_map, List.mem_range]
  constructor
  · rintro ⟨i, hi, rfl⟩; exact ⟨i, hi, rfl⟩
  · rintro ⟨i, hi, rfl⟩; exact ⟨i, hi, rfl⟩

theorem mem_allPairs {p : String × String} {ids : List String} {reps : Nat} :
    p ∈ allPairs ids reps ↔ ∃ id ∈ ids, ∃ i, i < reps ∧ p = (hkey id i, id) := by
  simp only [allPairs, List.mem_flatMap, mem_idPairs]

theorem eraseVals_nil (ring : List (String × String)) : eraseVals ring [] = ring := rfl

theorem eraseVals_cons (ring : List (String × String)) (p : Nat × String)
    (c : List (Nat × String)) :
    eraseVals ring (p :: c) = eraseVals (ringErase ring p.2) c := rfl

theorem eraseVals_sublist : ∀ (c : List (Nat × String)) (ring : List (String × String)),
    List.Sublist (eraseVals ring c) ring := by
  intro c
  induction c with
  | nil => intro ring; exact List.Sublist.refl ring
  | cons p t ih =>
    intro ring
    rw [eraseVals_cons]
    exact (ih (ringErase ring p.2)).trans (ringErase_sublist ring p.2)

theorem eraseVals_sorted {c : List (Nat × String)} {ring : List (String × String)}
    (h : RSorted ring) : RSorted (eraseVals ring c) :=
  List.Pairwise.sublist (eraseVals_sublist c ring) h

theorem mem_eraseVals : ∀ {c : List (Nat × String)} {ring : List (String × String)},
    (ring.map Prod.fst).Nodup → ∀ {q : String × String},
    (q ∈ eraseVals ring c ↔ q ∈ ring ∧ ∀ p ∈ c, q.1 ≠ p.2) := by
  intro c
  induction c with
  | nil => intro ring _ q; simp [eraseVals_nil]
  | cons p t ih =>
    intro ring hnd q
    rw [eraseVals_cons]
    have hnd2 : ((ringErase ring p.2).map Prod.fst).Nodup :=
      ((ringErase_sublist ring p.2).map Prod.fst).nodup hnd
    rw [ih hnd2, mem_ringErase hnd]
    constructor
    · rintro ⟨⟨hq, hne⟩, hall⟩
      refine ⟨hq, fun r hr => ?_⟩
      rcases List.mem_cons.mp hr with rfl | hr
      · exact hne
      · exact hall r hr
    · rintro ⟨hq, hall⟩
      exact ⟨⟨hq, hall p (List.mem_cons_self p t)⟩,
        fun r hr => hall r (List.mem_cons_of_mem _ hr)⟩

theorem eraseVals_length : ∀ {c : List (Nat × String)} {ring : List (String × String)},
    (ring.map Prod.fst).Nodup → (c.map Prod.snd).Nodup →
    (∀ p ∈ c, p.2 ∈ ring.map Prod.fst) →
    ring.length = (eraseVals ring c).length + c.length := by
  intro c
  induction c with
  | nil => intro ring _ _ _; simp [eraseVals_nil]
  | cons p t ih =>
    intro ring hnd hvnd hpres
    simp only [List.map_cons, List.nodup_cons] at hvnd
    rw [eraseVals_cons]
    have hnd2 : ((ringErase ring p.2).map Prod.fst).Nodup :=
      ((ringErase_sublist ring p.2).map Prod.fst).nodup hnd
    have hpres2 : ∀ r ∈ t, r.2 ∈ (ringErase ring p.2).map Prod.fst := by
      intro r hr
      rw [keys_ringErase hnd]
      refine ⟨hpres r (List.mem_cons_of_mem _ hr), fun he => ?_⟩
      exact hvnd.1 (he ▸ List.mem_map_of_mem Prod.snd hr)
    rw [length_ringErase_of_mem (hpres p (List.mem_cons_self p t)),
      ih hnd2 hvnd.2 hpres2]
    simp only [List.length_cons]
    omega


/-! ## Structural well-formedness is preserved by every operation -/

theorem remove_eq_some {lc : LightCycle} {id : String} {c : List (Nat × String)}
    (hl : alookup lc.keycache id = some c) :
    remove lc id =
      { lc with
        hashring := eraseVals lc.hashring c
        keycache := aerase lc.keycache id
        resources := lc.resources.erase id } := by
  simp only [remove, hl, eraseVals]

theorem remove_eq_none {lc : LightCycle} {id : String}
    (hl : alookup lc.keycache id = none) :
    remove lc id =
      { lc with
        keycache := aerase lc.keycache id
        resources := lc.resources.erase id } := by
  simp only [remove, hl]

theorem WF_newRing (r : Nat) : WF (newRing r) := by
  refine ⟨?_, ?_, ?_, ?_, ?_⟩ <;> simp [newRing, RSorted, KCPure]

theorem WF_addMid {lc : LightCycle} {id : String} (h : WF lc) : WF (addMid lc id) := by
  obtain ⟨hs, hp, hnd, hrr, hrc⟩ := h
  have hcf : CachePure id (cacheFold id (cacheZero lc.keycache id) (List.range lc.replicas)) :=
    cacheFold_pure (cacheZero_pure hp)
  refine ⟨?_, ?_, ?_, ?_, ?_⟩
  · exact insertPairs_sorted hs
  · exact KCPure_ainsert hp hcf
  · show (if id ∈ lc.resources then lc.resources else lc.resources ++ [id]).Nodup
    by_cases hmem : id ∈ lc.resources
    · rw [if_pos hmem]; exact hnd
    · rw [if_neg hmem, List.nodup_append]
      refine ⟨hnd, List.nodup_singleton id, fun a ha hb => ?_⟩
      rw [List.mem_singleton] at hb
      exact hmem (hb ▸ ha)
  · intro p hp'
    have hid : id ∈ (addMid lc id).resources := by
      show id ∈ (if id ∈ lc.resources then lc.resources else lc.resources ++ [id])
      by_cases hmem : id ∈ lc.resources
      · rw [if_pos hmem]; exact hmem
      · rw [if_neg hmem]
        exact List.mem_append_right _ (List.mem_singleton_self id)
    rcases mem_insertPairs_weak hp' with hq | hq
    · obtain ⟨i, hi, rfl⟩ := mem_idPairs.mp hq
      exact hid
    · have h2 := hrr p hq
      show p.2 ∈ (if id ∈ lc.resources then lc.resources else lc.resources ++ [id])
      by_cases hmem : id ∈ lc.resources
      · rw [if_pos hmem]; exact h2
      · rw [if_neg hmem]; exact List.mem_append_left _ h2
  · intro p hp'
    rcases mem_insertPairs_weak hp' with hq | hq
    · obtain ⟨i, hi, rfl⟩ := mem_idPairs.mp hq
      refine ⟨cacheFold id (cacheZero lc.keycache id) (List.range lc.replicas),
        alookup_ainsert_self _ _ _, i, hi, ?_⟩
      obtain ⟨k, hk⟩ := cacheFold_covers i (List.mem_range.mpr hi)
      have hkv : k = hkey id i := hcf (i, k) hk
      exact hkv ▸ hk
    · obtain ⟨c, hcl, i, hi, hm⟩ := hrc p hq
      by_cases hpe : p.2 = id
      · refine ⟨cacheFold id (cacheZero lc.keycache id) (List.range lc.replicas), ?_, i, hi, ?_⟩
        · rw [hpe]; exact alookup_ainsert_self _ _ _
        · have hz : cacheZero lc.keycache id = c := by
            rw [cacheZero, ← hpe, hcl]
            rfl
          exact cacheFold_superset (hz ▸ hm)
      · exact ⟨c, by
          show alookup (ainsert lc.keycache id _) p.2 = some c
          rw [alookup_ainsert_ne _ _ hpe]
          exact hcl, i, hi, hm⟩

theorem WF_rebalance {lc : LightCycle} (h : WF lc) : WF (rebalance lc) := by
  obtain ⟨hs, hp, hnd, hrr, hrc⟩ := h
  rw [rebalance_eq hp]
  refine ⟨?_, ?_, ?_, ?_, ?_⟩
  · exact insertPairs_sorted List.Pairwise.nil
  · exact rebCache_pure hp
  · exact hnd
  · intro p hp'
    rcases mem_insertPairs_weak hp' with hq | hq
    · obtain ⟨id, hid, i, hi, rfl⟩ := mem_allPairs.mp hq
      exact hid
    · cases hq
  · intro p hp'
    rcases mem_insertPairs_weak hp' with hq | hq
    · obtain ⟨id, hid, i, hi, rfl⟩ := mem_allPairs.mp hq
      obtain ⟨c, hcl, hcov⟩ := rebCache_covers id hid
      obtain ⟨k, hk⟩ := hcov i hi
      have hcp : CachePure id c := rebCache_pure hp (id, c) (alookup_mem hcl)
      have hkv : k = hkey id i := hcp (i, k) hk
      exact ⟨c, hcl, i, hi, hkv ▸ hk⟩
    · cases hq

theorem WF_add {lc : LightCycle} {id : String} (h : WF lc) : WF (add lc id) := by
  rw [add_eq h.pure]
  by_cases hc : (addMid lc id).size < (addMid lc id).resources.length
  · rw [if_pos hc]
    exact WF_rebalance (WF_addMid h)
  · rw [if_neg hc]
    exact WF_addMid h

theorem WF_remove {lc : LightCycle} {id : String} (h : WF lc) : WF (remove lc id) := by
  obtain ⟨hs, hp, hnd, hrr, hrc⟩ := h
  cases hl : alookup lc.keycache id with
  | none =>
    rw [remove_eq_none hl]
    refine ⟨hs, KCPure_aerase hp, hnd.erase id, ?_, ?_⟩
    · intro p hp'
      have hne : p.2 ≠ id := by
        intro he
        obtain ⟨c, hcl, _, _, _⟩ := hrc p hp'
        rw [he, hl] at hcl
        cases hcl
      exact (List.mem_erase_of_ne hne).mpr (hrr p hp')
    · intro p hp'
      obtain ⟨c, hcl, i, hi, hm⟩ := hrc p hp'
      have hne : p.2 ≠ id := by
        intro he
        rw [he, hl] at hcl
        cases hcl
      exact ⟨c, by rw [alookup_aerase_ne _ hne]; exact hcl, i, hi, hm⟩
  | some c =>
    rw [remove_eq_some hl]
    have hkeysnd := RSorted_keys_nodup hs
    refine ⟨eraseVals_sorted hs, KCPure_aerase hp, hnd.erase id, ?_, ?_⟩
    · intro p hp'
      have hmm := (mem_eraseVals hkeysnd).mp hp'
      have hne : p.2 ≠ id := by
        intro he
        obtain ⟨c2, hcl, i, hi, hm⟩ := hrc p hmm.1
        rw [he, hl] at hcl
        injection hcl with hcc
        exact hmm.2 (i, p.1) (hcc ▸ hm) rfl
      exact (List.mem_erase_of_ne hne).mpr (hrr p hmm.1)
    · intro p hp'
      have hmm := (mem_eraseVals hkeysnd).mp hp'
      obtain ⟨c2, hcl, i, hi, hm⟩ := hrc p hmm.1
      have hne : p.2 ≠ id := by
        intro he
        rw [he, hl] at hcl
        injection hcl with hcc
        exact hmm.2 (i, p.1) (hcc ▸ hm) rfl
      exact ⟨c2, by rw [alookup_aerase_ne _ hne]; exact hcl, i, hi, hm⟩

theorem WF_step {lc : LightCycle} (h : WF lc) : ∀ op, WF (step lc op)
  | .add _ => WF_add h
  | .remove _ => WF_remove h
  | .rebalance => WF_rebalance h

theorem WF_run {ops : List Op} : ∀ {lc : LightCycle}, WF lc → WF (run lc ops) := by
  induction ops with
  | nil => intro lc h; exact h
  | cons op t ih =>
    intro lc h
    show WF (run (step lc op) t)
    exact ih (WF_step h op)


/-! ## The no-collision hypothesis and bounded well-formedness -/

theorem HKInj_elim {D : List String} {B : Nat} (h : HKInj D B) (_hD : D.Nodup)
    {a b : String} {i j : Nat} (ha : a ∈ D) (hb : b ∈ D) (hi : i < B) (hj : j < B)
    (hk : hkey a i = hkey b j) : a = b ∧ i = j := by
  rw [HKInj, List.nodup_flatMap] at h
  by_cases hab : a = b
  · subst hab
    refine ⟨rfl, ?_⟩
    have hinner := h.1 a ha
    exact List.inj_on_of_nodup_map hinner (List.mem_range.mpr hi)
      (List.mem_range.mpr hj) hk
  · exfalso
    have hdisj : ((List.range B).map (hkey a)).Disjoint ((List.range B).map (hkey b)) := by
      have hsym : Symmetric (fun x y : String =>
          ((List.range B).map (hkey x)).Disjoint ((List.range B).map (hkey y))) :=
        fun x y hxy => hxy.symm
      exact List.Pairwise.forall hsym h.2 ha hb hab
    exact hdisj (List.mem_map_of_mem _ (List.mem_range.mpr hi))
      (hk ▸ List.mem_map_of_mem _ (List.mem_range.mpr hj))

theorem idPairs_keys_nodup {D : List String} {B : Nat} (hinj : HKInj D B) (hD : D.Nodup)
    {id : String} {reps : Nat} (hid : id ∈ D) (hreps : reps ≤ B) :
    ((idPairs id reps).map Prod.fst).Nodup := by
  have : (idPairs id reps).map Prod.fst = (List.range reps).map (hkey id) := by
    simp [idPairs, Function.comp]
  rw [this]
  refine (List.nodup_range reps).map_on ?_
  intro x hx y hy hk
  exact (HKInj_elim hinj hD hid hid
    (lt_of_lt_of_le (List.mem_range.mp hx) hreps)
    (lt_of_lt_of_le (List.mem_range.mp hy) hreps) hk).2

theorem allPairs_keys_nodup {D : List String} {B : Nat} (hinj : HKInj D B) (hD : D.Nodup)
    {ids : List String} {reps : Nat} (hids : ∀ id ∈ ids, id ∈ D) (hnd : ids.Nodup)
    (hreps : reps ≤ B) :
    ((allPairs ids reps).map Prod.fst).Nodup := by
  have hmap : (allPairs ids reps).map Prod.fst =
      ids.flatMap (fun id => (idPairs id reps).map Prod.fst) := by
    simp [allPairs, List.map_flatMap]
  rw [hmap, List.nodup_flatMap]
  constructor
  · intro id hid
    exact idPairs_keys_nodup hinj hD (hids id hid) hreps
  · refine List.Pairwise.imp_of_mem ?_ hnd
    intro a b ha hb hne k hka hkb
    rcases List.mem_map.mp hka with ⟨p, hp, rfl⟩
    rcases List.mem_map.mp hkb with ⟨q, hq, hpq⟩
    obtain ⟨i, hi, rfl⟩ := mem_idPairs.mp hp
    obtain ⟨j, hj, rfl⟩ := mem_idPairs.mp hq
    exact hne (HKInj_elim hinj hD (hids a ha) (hids b hb)
      (lt_of_lt_of_le hi hreps) (lt_of_lt_of_le hj hreps) hpq.symm).1

theorem WFB_newRing {D : List String} {B r : Nat} (hr : r ≤ B) : WFB D B (newRing r) := by
  refine ⟨WF_newRing r, ?_, hr, ?_, ?_⟩ <;> simp [newRing]

theorem WFB_addMid {D : List String} {B : Nat} {lc : LightCycle} {id : String}
    (h : WFB D B lc) (hinj : HKInj D B) (hD : D.Nodup) (hid : id ∈ D) :
    WFB D B (addMid lc id) := by
  obtain ⟨hwf, hresD, hrepB, hcacheB, hcomp⟩ := h
  refine ⟨WF_addMid hwf, ?_, hrepB, ?_, ?_⟩
  · intro x hx
    show x ∈ D
    by_cases hmem : id ∈ lc.resources
    · simp only [addMid, if_pos hmem] at hx
      exact hresD x hx
    · simp only [addMid, if_neg hmem] at hx
      rcases List.mem_append.mp hx with hx | hx
      · exact hresD x hx
      · rw [List.mem_singleton] at hx
        exact hx ▸ hid
  · intro q hq r hr
    show r.1 < B
    rcases mem_ainsert _ _ _ hq with rfl | hq
    · exact cacheFold_bound (cacheZero_bound hcacheB)
        (fun i hi => lt_of_lt_of_le (List.mem_range.mp hi) hrepB) r hr
    · exact hcacheB q hq r hr
  · intro id2 hid2 i hi
    show (hkey id2 i, id2) ∈ insertPairs lc.hashring (idPairs id lc.replicas)
    by_cases hpe : id2 = id
    · subst hpe
      exact mem_insertPairs_self (idPairs_keys_nodup hinj hD hid hrepB)
        (mem_idPairs.mpr ⟨i, hi, rfl⟩)
    · have hid2D : id2 ∈ D := by
        by_cases hmem : id ∈ lc.resources
        · simp only [addMid, if_pos hmem] at hid2
          exact hresD id2 hid2
        · simp only [addMid, if_neg hmem] at hid2
          rcases List.mem_append.mp hid2 with hx | hx
          · exact hresD id2 hx
          · rw [List.mem_singleton] at hx
            exact absurd hx hpe
      have hid2res : id2 ∈ lc.resources := by
        by_cases hmem : id ∈ lc.resources
        · simp only [addMid, if_pos hmem] at hid2
          exact hid2
        · simp only [addMid, if_neg hmem] at hid2
          rcases List.mem_append.mp hid2 with hx | hx
          · exact hx
          · rw [List.mem_singleton] at hx
            exact absurd hx hpe
      refine mem_insertPairs_of_ne (hcomp id2 hid2res i hi) ?_
      intro hk
      rcases List.mem_map.mp hk with ⟨p, hp, hpk⟩
      obtain ⟨j, hj, rfl⟩ := mem_idPairs.mp hp
      exact hpe (HKInj_elim hinj hD hid2D hid
        (lt_of_lt_of_le hi hrepB) (lt_of_lt_of_le hj hrepB) hpk.symm).1

theorem WFB_rebalance {D : List String} {B : Nat} {lc : LightCycle}
    (h : WFB D B lc) (hinj : HKInj D B) (hD : D.Nodup)
    (hBlen : D.length + REPLICAS_PAD ≤ B) : WFB D B (rebalance lc) := by
  obtain ⟨hwf, hresD, hrepB, hcacheB, hcomp⟩ := h
  have hlen : lc.resources.length ≤ D.length :=
    (hwf.resNd.subperm (fun x hx => hresD x hx)).length_le
  have hreps : lc.resources.length + REPLICAS_PAD ≤ B := by omega
  have hwf2 := WF_rebalance hwf
  rw [rebalance_eq hwf.pure] at hwf2 ⊢
  refine ⟨hwf2, hresD, hreps, ?_, ?_⟩
  · exact rebCache_bound hreps hcacheB
  · intro id hid i hi
    show (hkey id i, id) ∈ insertPairs [] (allPairs lc.resources (lc.resources.length + REPLICAS_PAD))
    refine mem_insertPairs_self
      (allPairs_keys_nodup hinj hD hresD hwf.resNd hreps) ?_
    exact mem_allPairs.mpr ⟨id, hid, i, hi, rfl⟩

theorem WFB_add {D : List String} {B : Nat} {lc : LightCycle} {id : String}
    (h : WFB D B lc) (hinj : HKInj D B) (hD : D.Nodup) (hid : id ∈ D)
    (hBlen : D.length + REPLICAS_PAD ≤ B) : WFB D B (add lc id) := by
  rw [add_eq h.wf.pure]
  by_cases hc : (addMid lc id).size < (addMid lc id).resources.length
  · rw [if_pos hc]
    exact WFB_rebalance (WFB_addMid h hinj hD hid) hinj hD hBlen
  · rw [if_neg hc]
    exact WFB_addMid h hinj hD hid

theorem WFB_remove {D : List String} {B : Nat} {lc : LightCycle} {id : String}
    (h : WFB D B lc) (hinj : HKInj D B) (hD : D.Nodup) (hid : id ∈ D) :
    WFB D B (remove lc id) := by
  obtain ⟨hwf, hresD, hrepB, hcacheB, hcomp⟩ := h
  have hwf2 := @WF_remove lc id hwf
  cases hl : alookup lc.keycache id with
  | none =>
    rw [remove_eq_none hl] at hwf2 ⊢
    refine ⟨hwf2, ?_, hrepB, ?_, ?_⟩
    · intro x hx
      exact hresD x (List.mem_of_mem_erase hx)
    · intro q hq r hr
      exact hcacheB q (mem_aerase hq) r hr
    · intro id2 hid2 i hi
      exact hcomp id2 (List.mem_of_mem_erase hid2) i hi
  | some c =>
    rw [remove_eq_some hl] at hwf2 ⊢
    refine ⟨hwf2, ?_, hrepB, ?_, ?_⟩
    · intro x hx
      exact hresD x (List.mem_of_mem_erase hx)
    · intro q hq r hr
      exact hcacheB q (mem_aerase hq) r hr
    · intro id2 hid2 i hi
      show (hkey id2 i, id2) ∈ eraseVals lc.hashring c
      have hid2' := (hwf.resNd.mem_erase_iff.mp hid2)
      rw [mem_eraseVals (RSorted_keys_nodup hwf.sorted)]
      refine ⟨hcomp id2 hid2'.2 i hi, ?_⟩
      intro r hr hk
      have hcp : CachePure id c := hwf.pure (id, c) (alookup_mem hl)
      have hrv : r.2 = hkey id r.1 := hcp r hr
      have hrB : r.1 < B := hcacheB (id, c) (alookup_mem hl) r hr
      rw [hrv] at hk
      exact hid2'.1 (HKInj_elim hinj hD (hresD id2 hid2'.2) hid
        (lt_of_lt_of_le hi hrepB) hrB hk).1

theorem WFB_step {D : List String} {B : Nat} {lc : LightCycle} {op : Op}
    (h : WFB D B lc) (hinj : HKInj D B) (hD : D.Nodup)
    (hBlen : D.length + REPLICAS_PAD ≤ B) (hop : opIdIn op D) :
    WFB D B (step lc op) := by
  cases op with
  | add id => exact WFB_add h hinj hD hop hBlen
  | remove id => exact WFB_remove h hinj hD hop
  | rebalance => exact WFB_rebalance h hinj hD hBlen

theorem WFB_run {D : List String} {B : Nat} {ops : List Op} :
    ∀ {lc : LightCycle}, WFB D B lc → HKInj D B → D.Nodup →
    D.length + REPLICAS_PAD ≤ B → (∀ op ∈ ops, opIdIn op D) →
    WFB D B (run lc ops) := by
  induction ops with
  | nil => intro lc h _ _ _ _; exact h
  | cons op t ih =>
    intro lc h hinj hD hBlen hops
    show WFB D B (run (step lc op) t)
    exact ih (WFB_step h hinj hD hBlen (hops op (List.mem_cons_self op t)))
      hinj hD hBlen (fun o ho => hops o (List.mem_cons_of_mem _ ho))

/-! ## Exact replica counts under no collision -/

theorem countId_eq {D : List String} {B : Nat} {lc : LightCycle} {id : String}
    (h : WFB D B lc) (hinj : HKInj D B) (hD : D.Nodup) (hid : id ∈ lc.resources) :
    countId lc id = lc.replicas := by
  obtain ⟨hwf, hresD, hrepB, hcacheB, hcomp⟩ := h
  have hringNd : lc.hashring.Nodup := (RSorted_keys_nodup hwf.sorted).of_map
  have hfNd : (lc.hashring.filter (fun p => p.2 == id)).Nodup :=
    (List.filter_sublist lc.hashring).nodup hringNd
  have hpNd : (idPairs id lc.replicas).Nodup :=
    (idPairs_keys_nodup hinj hD (hresD id hid) hrepB).of_map
  have hsub1 : lc.hashring.filter (fun p => p.2 == id) ⊆ idPairs id lc.replicas := by
    intro p hp
    have hp2 := List.of_mem_filter hp
    have hpm := List.mem_of_mem_filter hp
    have hpe : p.2 = id := by simpa using hp2
    obtain ⟨c, hcl, i, hi, hm⟩ := hwf.ringCache p hpm
    have hcp : CachePure p.2 c := hwf.pure (p.2, c) (alookup_mem hcl)
    have hpk : p.1 = hkey p.2 i := hcp (i, p.1) hm
    rw [mem_idPairs]
    refine ⟨i, hi, ?_⟩
    rw [← hpe, ← hpk]
  have hsub2 : idPairs id lc.replicas ⊆ lc.hashring.filter (fun p => p.2 == id) := by
    intro p hp
    obtain ⟨i, hi, rfl⟩ := mem_idPairs.mp hp
    refine List.mem_filter.mpr ⟨hcomp id hid i hi, by simp⟩
  have hperm := (hfNd.subperm hsub1).antisymm (hpNd.subperm hsub2)
  rw [countId, hperm.length_eq, idPairs, List.length_map, List.length_range]


/-! ## Locate characterizations -/

theorem mem_of_getLast?_eq {α : Type} {l : List α} {x : α} (h : l.getLast? = some x) :
    x ∈ l := by
  have hx : x ∈ l.getLast? := by simp [Option.mem_def, h]
  obtain ⟨hne, he⟩ := List.mem_getLast?_eq_getLast hx
  exact he ▸ List.getLast_mem hne

theorem locate_none_of_empty (lc : LightCycle) (h : lc.hashring = []) (k : String) :
    locate lc k = none := by
  simp [locate, h]

theorem locate_ne_none {lc : LightCycle} (k : String)
    (hres : ∀ p ∈ lc.hashring, p.2 ∈ lc.resources) (hne : lc.hashring ≠ []) :
    locate lc k ≠ none := by
  rw [locate]
  cases hf : (lc.hashring.filter (fun p => strLe p.2 k)).getLast? with
  | some p =>
    have hpm : p ∈ lc.hashring := List.mem_of_mem_filter (mem_of_getLast?_eq hf)
    simp [hres p hpm]
  | none =>
    cases hh : lc.hashring.head? with
    | some p =>
      have hpm : p ∈ lc.hashring := List.mem_of_mem_head? (by simp [Option.mem_def, hh])
      simp [hres p hpm]
    | none => exact absurd (List.head?_eq_none_iff.mp hh) hne

theorem locate_single {lc : LightCycle} {id : String} (hres : id ∈ lc.resources)
    (hvals : ∀ p ∈ lc.hashring, p.2 = id) (hne : lc.hashring ≠ []) (k : String) :
    locate lc k = some id := by
  rw [locate]
  cases hf : (lc.hashring.filter (fun p => strLe p.2 k)).getLast? with
  | some p =>
    have hpm : p ∈ lc.hashring := List.mem_of_mem_filter (mem_of_getLast?_eq hf)
    simp [hvals p hpm, hres]
  | none =>
    cases hh : lc.hashring.head? with
    | some p =>
      have hpm : p ∈ lc.hashring := List.mem_of_mem_head? (by simp [Option.mem_def, hh])
      simp [hvals p hpm, hres]
    | none => exact absurd (List.head?_eq_none_iff.mp hh) hne

theorem locate_congr {lc1 lc2 : LightCycle} (hr : lc1.hashring = lc2.hashring)
    (hres : ∀ x : String, x ∈ lc1.resources ↔ x ∈ lc2.resources) (k : String) :
    locate lc1 k = locate lc2 k := by
  rw [locate, locate, hr]
  cases (lc2.hashring.filter (fun p => strLe p.2 k)).getLast? with
  | some p => exact if_congr (hres p.2) rfl rfl
  | none =>
    cases lc2.hashring.head? with
    | some p => exact if_congr (hres p.2) rfl rfl
    | none => rfl

/-! ## Replica-count positivity and field stability -/

theorem rebalance_resources (lc : LightCycle) : (rebalance lc).resources = lc.resources := rfl

theorem rebalance_replicas (lc : LightCycle) :
    (rebalance lc).replicas = lc.resources.length + REPLICAS_PAD := rfl

theorem remove_replicas (lc : LightCycle) (id : String) :
    (remove lc id).replicas = lc.replicas := rfl

theorem add_replicas_pos {lc : LightCycle} (id : String) (h : 0 < lc.replicas) :
    0 < (add lc id).replicas := by
  rw [add]
  split <;> split <;>
    first
      | (rw [rebalance_replicas, REPLICAS_PAD]; omega)
      | exact h

theorem step_replicas_pos {lc : LightCycle} (op : Op) (h : 0 < lc.replicas) :
    0 < (step lc op).replicas := by
  cases op with
  | add id => exact add_replicas_pos id h
  | remove id => rw [step, remove_replicas]; exact h
  | rebalance =>
    show 0 < (rebalance lc).replicas
    rw [rebalance_replicas, REPLICAS_PAD]
    omega

theorem run_replicas_pos {ops : List Op} :
    ∀ {lc : LightCycle}, 0 < lc.replicas → 0 < (run lc ops).replicas := by
  induction ops with
  | nil => intro lc h; exact h
  | cons op t ih =>
    intro lc h
    show 0 < (run (step lc op) t).replicas
    exact ih (step_replicas_pos op h)

/-! ## Idempotent re-add -/

theorem map_fst_insertPairs_of_mem :
    ∀ {ps ring : List (String × String)}, RSorted ring →
    (∀ p ∈ ps, p.1 ∈ ring.map Prod.fst) →
    (insertPairs ring ps).map Prod.fst = ring.map Prod.fst := by
  intro ps
  induction ps with
  | nil => intro ring _ _; rfl
  | cons p t ih =>
    intro ring hs hmem
    rw [insertPairs_cons]
    have hk := @map_fst_ringInsert_of_mem ring p.1 p.2 hs (hmem p (List.mem_cons_self p t))
    rw [ih (ringInsert_sorted hs) (fun q hq => hk ▸ hmem q (List.mem_cons_of_mem _ hq)), hk]

theorem add_noop {lc : LightCycle} {id : String}
    (hpure : KCPure lc.keycache) (hs : RSorted lc.hashring)
    (hmem : id ∈ lc.resources)
    (hsize : lc.resources.length ≤ lc.size)
    (hkeys : ∀ i, i < lc.replicas → hkey id i ∈ lc.hashring.map Prod.fst) :
    resourceCount (add lc id) = resourceCount lc ∧
    ringLen (add lc id) = ringLen lc ∧
    (add lc id).hashring.map Prod.fst = lc.hashring.map Prod.fst := by
  rw [add_eq hpure]
  have hres : (addMid lc id).resources = lc.resources := by
    simp [addMid, hmem]
  have hcond : ¬ (addMid lc id).size < (addMid lc id).resources.length := by
    rw [hres]
    show ¬ lc.size < lc.resources.length
    omega
  rw [if_neg hcond]
  have hkeq : (addMid lc id).hashring.map Prod.fst = lc.hashring.map Prod.fst := by
    show (insertPairs lc.hashring (idPairs id lc.replicas)).map Prod.fst = _
    refine map_fst_insertPairs_of_mem hs ?_
    intro p hp
    obtain ⟨i, hi, rfl⟩ := mem_idPairs.mp hp
    exact hkeys i hi
  refine ⟨?_, ?_, hkeq⟩
  · show (addMid lc id).resources.length = lc.resources.length
    rw [hres]
  · show (addMid lc id).hashring.length = lc.hashring.length
    have := congrArg List.length hkeq
    simpa using this

/-! ## Rebalanced ring size -/

theorem allPairs_length (ids : List String) (reps : Nat) :
    (allPairs ids reps).length = ids.length * reps := by
  induction ids with
  | nil => simp [allPairs]
  | cons id t ih =>
    rw [allPairs, List.flatMap_cons, List.length_append, ← allPairs, ih]
    rw [idPairs, List.length_map, List.length_range, List.length_cons]
    rw [Nat.succ_mul]
    omega

theorem ringLen_rebalance {D : List String} {B : Nat} {lc : LightCycle}
    (hpure : KCPure lc.keycache) (hnd : lc.resources.Nodup)
    (hinj : HKInj D B) (hD : D.Nodup) (hres : ∀ id ∈ lc.resources, id ∈ D)
    (hreps : lc.resources.length + REPLICAS_PAD ≤ B) :
    ringLen (rebalance lc) =
      lc.resources.length * (lc.resources.length + REPLICAS_PAD) := by
  rw [rebalance_eq hpure]
  show (insertPairs [] (allPairs lc.resources (lc.resources.length + REPLICAS_PAD))).length = _
  rw [length_insertPairs List.Pairwise.nil
    (allPairs_keys_nodup hinj hD hres hnd hreps) (fun p _ hp => by cases hp)]
  rw [List.length_nil, allPairs_length]
  omega

/-! ## Clean remove -/

theorem remove_len {lc : LightCycle} {id : String} {c : List (Nat × String)}
    (hs : RSorted lc.hashring)
    (hl : alookup lc.keycache id = some c)
    (hvnd : (c.map Prod.snd).Nodup)
    (hpres : ∀ p ∈ c, p.2 ∈ lc.hashring.map Prod.fst)
    (hcnt : c.length = lc.replicas) :
    ringLen lc = ringLen (remove lc id) + lc.replicas := by
  rw [remove_eq_some hl]
  show lc.hashring.length = (eraseVals lc.hashring c).length + lc.replicas
  rw [← hcnt]
  exact eraseVals_length (RSorted_keys_nodup hs) hvnd hpres


/-! ## Cache transparency -/

theorem clearCache_pure (lc : LightCycle) : KCPure (clearCache lc).keycache :=
  fun q hq => by cases hq

theorem rebalance_clearCache {lc : LightCycle} (h : KCPure lc.keycache) :
    (rebalance (clearCache lc)).hashring = (rebalance lc).hashring := by
  rw [rebalance_eq h, rebalance_eq (clearCache_pure lc)]
  rfl

theorem add_clearCache {lc : LightCycle} {id : String} (h : KCPure lc.keycache) :
    (add (clearCache lc) id).hashring = (add lc id).hashring := by
  rw [add_eq h, add_eq (clearCache_pure lc)]
  have hsz : (addMid (clearCache lc) id).size = (addMid lc id).size := rfl
  have hrs : (addMid (clearCache lc) id).resources = (addMid lc id).resources := rfl
  by_cases hc : (addMid lc id).size < (addMid lc id).resources.length
  · rw [if_pos hc, if_pos (by rw [hsz, hrs]; exact hc)]
    have hp1 : KCPure (addMid (clearCache lc) id).keycache :=
      KCPure_ainsert (clearCache_pure lc)
        (cacheFold_pure (cacheZero_pure (clearCache_pure lc)))
    have hp2 : KCPure (addMid lc id).keycache :=
      KCPure_ainsert h (cacheFold_pure (cacheZero_pure h))
    rw [rebalance_eq hp1, rebalance_eq hp2]
    rw [hrs]
  · rw [if_neg hc, if_neg (by rw [hsz, hrs]; exact hc)]
    rfl

/-! ## Insertion-order independence -/

theorem rsorted_eq_of_mem_iff {m1 m2 : List (String × String)} (h1 : RSorted m1)
    (h2 : RSorted m2) (h : ∀ p, p ∈ m1 ↔ p ∈ m2) : m1 = m2 := by
  haveI : IsAntisymm (String × String) (fun p q => strLt p.1 q.1 = true) := by
    constructor
    intro a b hab hba
    have hf := strLt_asymm hab
    rw [hf] at hba
    cases hba
  have hnd1 : m1.Nodup := (RSorted_keys_nodup h1).of_map
  have hnd2 : m2.Nodup := (RSorted_keys_nodup h2).of_map
  have hperm : m1.Perm m2 :=
    (hnd1.subperm (fun p hp => (h p).mp hp)).antisymm
      (hnd2.subperm (fun p hp => (h p).mpr hp))
  exact List.eq_of_perm_of_sorted hperm h1 h2

theorem build_append (r : Nat) (l : List String) (id : String) :
    build r (l ++ [id]) = add (build r l) id := by
  rw [build, build, List.foldl_append]
  rfl

theorem build_invariant {D : List String} {B r : Nat}
    (hinj : HKInj D B) (hD : D.Nodup) (hr : r ≤ B) :
    ∀ (l : List String), l.Nodup → (∀ id ∈ l, id ∈ D) → l.length ≤ r + SIZE_PAD →
    (build r l).replicas = r ∧ (build r l).resources = l ∧
    (build r l).size = r + SIZE_PAD ∧
    RSorted (build r l).hashring ∧ KCPure (build r l).keycache ∧
    (∀ p : String × String,
      p ∈ (build r l).hashring ↔ ∃ id ∈ l, ∃ i, i < r ∧ p = (hkey id i, id)) := by
  intro l
  induction l using List.reverseRecOn with
  | nil =>
    intro _ _ _
    refine ⟨rfl, rfl, rfl, List.Pairwise.nil, ?_, ?_⟩
    · intro q hq
      cases hq
    · intro p
      simp [build, newRing]
  | append_singleton l id ih =>
    intro hnd hsub hlen
    rw [List.nodup_append] at hnd
    obtain ⟨hndl, -, hdisj⟩ := hnd
    have hidl : ¬ id ∈ l := fun hmem => hdisj hmem (List.mem_singleton_self id)
    have hsubl : ∀ x ∈ l, x ∈ D := fun x hx => hsub x (List.mem_append_left _ hx)
    have hidD : id ∈ D := hsub id (List.mem_append_right _ (List.mem_singleton_self id))
    have hlenl : l.length ≤ r + SIZE_PAD := by
      rw [List.length_append] at hlen
      simp at hlen
      omega
    obtain ⟨hrep, hres, hsz, hsort, hpure, hmem⟩ := ih hndl hsubl hlenl
    rw [build_append]
    rw [add_eq hpure]
    have hresMid : (addMid (build r l) id).resources = l ++ [id] := by
      show (if id ∈ (build r l).resources then (build r l).resources
        else (build r l).resources ++ [id]) = l ++ [id]
      rw [hres, if_neg hidl]
    have hcond : ¬ (addMid (build r l) id).size < (addMid (build r l) id).resources.length := by
      rw [hresMid]
      show ¬ (build r l).size < (l ++ [id]).length
      rw [hsz]
      omega
    rw [if_neg hcond]
    have hrepl : (addMid (build r l) id).replicas = r := hrep
    have hkeysnd : ((idPairs id (build r l).replicas).map Prod.fst).Nodup := by
      rw [hrep]
      exact idPairs_keys_nodup hinj hD hidD hr
    refine ⟨hrepl, hresMid, hsz, ?_, ?_, ?_⟩
    · exact insertPairs_sorted hsort
    · exact KCPure_ainsert hpure (cacheFold_pure (cacheZero_pure hpure))
    · intro p
      show p ∈ insertPairs (build r l).hashring (idPairs id (build r l).replicas) ↔ _
      rw [mem_insertPairs_sorted hsort hkeysnd]
      constructor
      · intro hp
        rcases hp with hp | ⟨hp, -⟩
        · obtain ⟨i, hi, rfl⟩ := mem_idPairs.mp hp
          rw [hrep] at hi
          exact ⟨id, List.mem_append_right _ (List.mem_singleton_self id), i, hi, rfl⟩
        · obtain ⟨id2, hid2, i, hi, rfl⟩ := (hmem p).mp hp
          exact ⟨id2, List.mem_append_left _ hid2, i, hi, rfl⟩
      · rintro ⟨id2, hid2, i, hi, rfl⟩
        rcases List.mem_append.mp hid2 with hid2 | hid2
        · right
          refine ⟨(hmem _).mpr ⟨id2, hid2, i, hi, rfl⟩, ?_⟩
          intro hk
          rcases List.mem_map.mp hk with ⟨q, hq, hqk⟩
          obtain ⟨j, hj, rfl⟩ := mem_idPairs.mp hq
          rw [hrep] at hj
          have := (HKInj_elim hinj hD (hsubl id2 hid2) hidD
            (lt_of_lt_of_le hi hr) (lt_of_lt_of_le hj hr) hqk.symm).1
          exact hidl (this ▸ hid2)
        · left
          rw [List.mem_singleton] at hid2
          subst hid2
          rw [hrep]
          exact mem_idPairs.mpr ⟨i, hi, rfl⟩

theorem build_locate_eq {D : List String} {B r : Nat} {l1 l2 : List String}
    (hinj : HKInj D B) (hD : D.Nodup) (hr : r ≤ B)
    (hperm : l1.Perm l2) (hnd : l1.Nodup) (hsub : ∀ id ∈ l1, id ∈ D)
    (hlen : l1.length ≤ r + SIZE_PAD) (k : String) :
    locate (build r l1) k = locate (build r l2) k := by
  obtain ⟨-, hres1, -, hsort1, -, hmem1⟩ :=
    build_invariant hinj hD hr l1 hnd hsub hlen
  obtain ⟨-, hres2, -, hsort2, -, hmem2⟩ :=
    build_invariant hinj hD hr l2 (hperm.nodup hnd)
      (fun x hx => hsub x (hperm.mem_iff.mpr hx)) (hperm.length_eq ▸ hlen)
  have hring : (build r l1).hashring = (build r l2).hashring := by
    refine rsorted_eq_of_mem_iff hsort1 hsort2 (fun p => ?_)
    rw [hmem1, hmem2]
    constructor
    · rintro ⟨id, hid, i, hi, rfl⟩
      exact ⟨id, hperm.mem_iff.mp hid, i, hi, rfl⟩
    · rintro ⟨id, hid, i, hi, rfl⟩
      exact ⟨id, hperm.mem_iff.mpr hid, i, hi, rfl⟩
  refine locate_congr hring (fun x => ?_) k
  rw [hres1, hres2]
  exact hperm.mem_iff


/-! ## Insertion-order independence through rebalances -/

theorem rebalance_size (lc : LightCycle) :
    (rebalance lc).size = lc.resources.length + SIZE_PAD := rfl

theorem add_eq_not_mem (lc : LightCycle) (id : String) (hid : ¬ id ∈ lc.resources) :
    add lc id =
      (if lc.size < lc.resources.length + 1
       then rebalance { lc with
          keycache := ainsert lc.keycache id
            (addReplicas lc.replicas ((alookup lc.keycache id).getD []) lc.hashring id).1
          hashring :=
            (addReplicas lc.replicas ((alookup lc.keycache id).getD []) lc.hashring id).2
          resources := lc.resources ++ [id] }
       else { lc with
          keycache := ainsert lc.keycache id
            (addReplicas lc.replicas ((alookup lc.keycache id).getD []) lc.hashring id).1
          hashring :=
            (addReplicas lc.replicas ((alookup lc.keycache id).getD []) lc.hashring id).2
          resources := lc.resources ++ [id] }) := by
  simp only [add, hid, ite_false, if_neg, not_false_iff]
  exact if_congr (by simp) rfl rfl

theorem build_eq_run (r : Nat) (l : List String) :
    build r l = run (newRing r) (l.map Op.add) := by
  rw [build, run, List.foldl_map]
  rfl

theorem build_repSize {r : Nat} : ∀ {l : List String}, l.Nodup →
    (build r l).replicas = (repSize r l.length).1 ∧
    (build r l).size = (repSize r l.length).2 ∧
    (build r l).resources = l := by
  intro l
  induction l using List.reverseRecOn with
  | nil => intro _; exact ⟨rfl, rfl, rfl⟩
  | append_singleton l id ih =>
    intro hnd
    rw [List.nodup_append] at hnd
    obtain ⟨hndl, -, hdisj⟩ := hnd
    have hidl : ¬ id ∈ l := fun hmem => hdisj hmem (List.mem_singleton_self id)
    obtain ⟨hrep, hsz, hres⟩ := ih hndl
    have hidl2 : ¬ id ∈ (build r l).resources := by rw [hres]; exact hidl
    rw [build_append, add_eq_not_mem _ _ hidl2]
    have hlen : (l ++ [id]).length = l.length + 1 := by simp
    rw [hlen, repSize, hres, hsz]
    by_cases hc : (repSize r l.length).2 < l.length + 1
    · simp only [if_pos hc]
      refine ⟨?_, ?_, ?_⟩
      · rw [rebalance_replicas]
        simp
      · rw [rebalance_size]
        simp
      · rw [rebalance_resources]
    · simp only [if_neg hc]
      exact ⟨hrep, trivial, trivial⟩

/-- Under bounded well-formedness, the Ring Index is exactly the set of
replica pairs of the registered resources at the current replica count. -/
theorem WFB_ring_mem {D : List String} {B : Nat} {lc : LightCycle}
    (h : WFB D B lc) (p : String × String) :
    p ∈ lc.hashring ↔
      ∃ id ∈ lc.resources, ∃ i, i < lc.replicas ∧ p = (hkey id i, id) := by
  obtain ⟨pk, pv⟩ := p
  constructor
  · intro hp
    have hv := h.wf.ringRes (pk, pv) hp
    obtain ⟨c, hcl, i, hi, hm⟩ := h.wf.ringCache (pk, pv) hp
    have hcp : CachePure pv c := h.wf.pure (pv, c) (alookup_mem hcl)
    have hk : pk = hkey pv i := hcp (i, pk) hm
    exact ⟨pv, hv, i, hi, by rw [hk]⟩
  · rintro ⟨id, hid, i, hi, he⟩
    rw [he]
    exact h.complete id hid i hi

/-- Two rings built from permuted resource lists — rebalances included —
resolve every lookup key identically, given replica keys pairwise
distinct up to a bound covering every replica count reached. -/
theorem build_locate_eq_full {D : List String} {B r : Nat} {l1 l2 : List String}
    (hinj : HKInj D B) (hD : D.Nodup) (hr : r ≤ B)
    (hB : D.length + REPLICAS_PAD ≤ B) (hperm : l1.Perm l2) (hnd : l1.Nodup)
    (hsub : ∀ id ∈ l1, id ∈ D) (k : String) :
    locate (build r l1) k = locate (build r l2) k := by
  have hops1 : ∀ op ∈ l1.map Op.add, opIdIn op D := by
    intro op hop
    rcases List.mem_map.mp hop with ⟨id, hid, rfl⟩
    exact hsub id hid
  have hops2 : ∀ op ∈ l2.map Op.add, opIdIn op D := by
    intro op hop
    rcases List.mem_map.mp hop with ⟨id, hid, rfl⟩
    exact hsub id (hperm.mem_iff.mpr hid)
  have hw1 : WFB D B (build r l1) := by
    rw [build_eq_run]
    exact WFB_run (WFB_newRing hr) hinj hD hB hops1
  have hw2 : WFB D B (build r l2) := by
    rw [build_eq_run]
    exact WFB_run (WFB_newRing hr) hinj hD hB hops2
  obtain ⟨hrep1, -, hres1⟩ := @build_repSize r l1 hnd
  obtain ⟨hrep2, -, hres2⟩ := @build_repSize r l2 (hperm.nodup hnd)
  have hrepeq : (build r l1).replicas = (build r l2).replicas := by
    rw [hrep1, hrep2, hperm.length_eq]
  have hring : (build r l1).hashring = (build r l2).hashring := by
    refine rsorted_eq_of_mem_iff hw1.wf.sorted hw2.wf.sorted (fun p => ?_)
    rw [WFB_ring_mem hw1 p, WFB_ring_mem hw2 p, hres1, hres2, hrepeq]
    constructor
    · rintro ⟨id, hid, i, hi, rfl⟩
      exact ⟨id, hperm.mem_iff.mp hid, i, hi, rfl⟩
    · rintro ⟨id, hid, i, hi, rfl⟩
      exact ⟨id, hperm.mem_iff.mpr hid, i, hi, rfl⟩
  refine locate_congr hring (fun x => ?_) k
  rw [hres1, hres2]
  exact hperm.mem_iff

/-! ## Fidelity checks: the repository's own tests, replayed -/

set_option maxRecDepth 100000

/-- The model reproduces every assertion of the Rust test
`distributed_orchard_technology` (replica count 2), which pins down the
embedding of BLAKE3, the ring order and `locate`. -/
theorem testRing_replay :
    ringLen testRing = 10 ∧ resourceCount testRing = 5 ∧
    locate testRing "nom nom nom" = some "kumquat" ∧
    locate testRing "asdfasdfasdfsafasdf" = some "apple" ∧
    locate testRing "1" = some "papaya" := by
  refine ⟨rfl, rfl, rfl, rfl, rfl⟩

/-- Likewise for `many_boxes_of_fruit` (replica count 3). -/
theorem testRing3_replay :
    ringLen (build 3 ["apple", "papaya", "kumquat", "litchi", "raspberry"]) = 15 ∧
    locate (build 3 ["apple", "papaya", "kumquat", "litchi", "raspberry"]) "nom nom nom"
      = some "kumquat" ∧
    locate (build 3 ["apple", "papaya", "kumquat", "litchi", "raspberry"]) "1"
      = some "papaya" := by
  refine ⟨rfl, rfl, rfl⟩


/-! ## The claims -/

/-- C1: the spec's `locate` hashes the lookup key and searches the ring
keys for the first entry `≥` the query key (wrapping around); the code's
`locate` instead compares the *raw* lookup string against the stored
resource identifiers (the map's values) and never hashes it.  On the
repository's own five-fruit test ring the two disagree: for the lookup
`"asdfasdfasdfsafasdf"` the spec algorithm yields `"kumquat"` while the
code yields `"apple"`, and for `"1"` the spec yields `"apple"` while the
code yields `"papaya"`. -/
theorem C1_locate_divergence :
    locate testRing "asdfasdfasdfsafasdf" = some "apple" ∧
    specLocate testRing "asdfasdfasdfsafasdf" = some "kumquat" ∧
    locate testRing "1" = some "papaya" ∧
    specLocate testRing "1" = some "apple" := by
  refine ⟨rfl, rfl, rfl, rfl⟩

/-- C2 (amended): after every sequence of `add`, `remove` and `rebalance`
operations from a fresh ring, every replica key present in the Ring Index
maps to a currently registered resource; and — provided the replica keys
of all ids touched by the sequence are pairwise distinct up to an index
bound `B` covering every replica count reached — every registered
resource has exactly `replicas` entries in the Ring Index. -/
theorem C2_ring_invariant (r : Nat) (ops : List Op) :
    (∀ p ∈ (run (newRing r) ops).hashring, p.2 ∈ (run (newRing r) ops).resources) ∧
    (∀ D B, D.Nodup → r ≤ B → D.length + REPLICAS_PAD ≤ B →
      (∀ op ∈ ops, opIdIn op D) → HKInj D B →
      ∀ id ∈ (run (newRing r) ops).resources,
        countId (run (newRing r) ops) id = (run (newRing r) ops).replicas) := by
  constructor
  · exact (WF_run (WF_newRing r)).ringRes
  · intro D B hD hr hB hops hinj id hid
    exact countId_eq (WFB_run (WFB_newRing hr) hinj hD hB hops) hinj hD hid

/-- Witness for C2 at a concrete run. -/
theorem C2_ring_invariant_witness :
    countId (run (newRing 2) [Op.add "a"]) "a" =
      (run (newRing 2) [Op.add "a"]).replicas :=
  (C2_ring_invariant 2 [Op.add "a"]).2 ["a"] 9 (by decide) (by decide) (by decide)
    (by decide) (by decide) "a" (by decide)

/-- C2 counterexample: as literally stated the claim is false.  With
replica count 12 and resources `"a"` and `"a1"`, the items `"a" ++ "11"`
and `"a1" ++ "1"` (and `"a" ++ "10"` / `"a1" ++ "0"`) coincide, so after
both adds resource `"a"` owns only 10 of its 12 replica keys. -/
theorem C2_ring_invariant_cex :
    "a" ∈ collideState.resources ∧ collideState.replicas = 12 ∧
    countId collideState "a" = 10 := by
  refine ⟨by decide, rfl, rfl⟩

/-- C3 (amended): re-adding an already registered identifier leaves
`resource_count`, `ring_size` and the set of ring keys unchanged, for any
consistent ring state in which every replica key of the identifier is
still present in the index (with, as always, a pure key cache, a sorted
index, and the registry not above the rebalance threshold). -/
theorem C3_add_idempotent {lc : LightCycle} {id : String}
    (hpure : KCPure lc.keycache) (hs : RSorted lc.hashring)
    (hmem : id ∈ lc.resources) (hsize : lc.resources.length ≤ lc.size)
    (hkeys : ∀ i, i < lc.replicas → hkey id i ∈ lc.hashring.map Prod.fst) :
    resourceCount (add lc id) = resourceCount lc ∧
    ringLen (add lc id) = ringLen lc ∧
    (add lc id).hashring.map Prod.fst = lc.hashring.map Prod.fst :=
  add_noop hpure hs hmem hsize hkeys

/-- Witness for C3 on a concrete two-resource ring. -/
theorem C3_add_idempotent_witness :
    resourceCount (add smallRing "a") = resourceCount smallRing ∧
    ringLen (add smallRing "a") = ringLen smallRing ∧
    (add smallRing "a").hashring.map Prod.fst = smallRing.hashring.map Prod.fst :=
  C3_add_idempotent (by decide) (by decide) (by decide) (by decide) (by decide)

/-- C3 counterexample: as literally stated the claim is false.  In
`readdState` the resource `"a"` is registered but two of its replica keys
were evicted when the colliding resource `"a1"` was removed; re-adding
`"a"` re-inserts them, growing the ring from 10 to 12 entries. -/
theorem C3_add_idempotent_cex :
    "a" ∈ readdState.resources ∧ ringLen readdState = 10 ∧
    ringLen (add readdState "a") = 12 := by
  refine ⟨by decide, rfl, rfl⟩

/-- C4 (amended): rebalancing never changes `resource_count`, and —
provided the registered identifiers' replica keys are pairwise distinct
up to the new replica count — the resulting `ring_size` equals
`resource_count * new_replica_count`. -/
theorem C4_rebalance_size (lc : LightCycle) :
    resourceCount (rebalance lc) = resourceCount lc ∧
    (∀ D B, KCPure lc.keycache → lc.resources.Nodup → D.Nodup →
      (∀ id ∈ lc.resources, id ∈ D) → lc.resources.length + REPLICAS_PAD ≤ B →
      HKInj D B →
      ringLen (rebalance lc) = resourceCount lc * (rebalance lc).replicas) := by
  constructor
  · show (rebalance lc).resources.length = lc.resources.length
    rw [rebalance_resources]
  · intro D B hpure hnd hD hres hB hinj
    rw [rebalance_replicas]
    exact ringLen_rebalance hpure hnd hinj hD hres hB

/-- Witness for C4 on a concrete one-resource ring. -/
theorem C4_rebalance_size_witness :
    ringLen (rebalance singleRing) =
      resourceCount singleRing * (rebalance singleRing).replicas :=
  (C4_rebalance_size singleRing).2 ["a"] 9 (by decide) (by decide) (by decide)
    (by decide) (by decide) (by decide)

/-- C4 counterexample: as literally stated the claim is false.  After
adding `"a"`, `"a1"` and `"b"` and rebalancing, the new replica count is
11, but `"a" ++ "10"` and `"a1" ++ "0"` are the same hash item, so the
index holds 32 entries instead of `3 * 11 = 33`. -/
theorem C4_rebalance_size_cex :
    resourceCount rebalCollideState = 3 ∧ rebalCollideState.replicas = 11 ∧
    ringLen rebalCollideState = 32 ∧
    ringLen rebalCollideState ≠
      resourceCount rebalCollideState * rebalCollideState.replicas := by
  refine ⟨rfl, rfl, rfl, by decide⟩

/-- C5 (amended): removing a registered resource removes exactly
`replicas` entries from the Ring Index, provided its key cache holds
exactly `replicas` keys, pairwise distinct and all present in the index
(the reachable situation absent replica-key collisions and stale cache
entries left by a shrinking rebalance). -/
theorem C5_remove_clean (lc : LightCycle) (id : String) (c : List (Nat × String))
    (hs : RSorted lc.hashring) (hl : alookup lc.keycache id = some c)
    (hvnd : (c.map Prod.snd).Nodup)
    (hpres : ∀ p ∈ c, p.2 ∈ lc.hashring.map Prod.fst)
    (hcnt : c.length = lc.replicas) :
    ringLen lc = ringLen (remove lc id) + lc.replicas :=
  remove_len hs hl hvnd hpres hcnt

/-- Witness for C5 on a concrete two-resource ring. -/
theorem C5_remove_clean_witness :
    ringLen smallRing = ringLen (remove smallRing "a") + smallRing.replicas :=
  C5_remove_clean smallRing "a" ((alookup smallRing.keycache "a").getD [])
    (by decide) (by decide) (by decide) (by decide) (by decide)

/-- C5 counterexample: as literally stated the claim is false.  Build a
ring with replica count 11, add `"a"`, rebalance (shrinking to 9 replicas
but keeping `"a"`'s stale index-10 cache entry), then add `"a1"`, whose
replica-0 key equals that stale key.  Removing `"a"` then removes 10
entries although the replica count is 9. -/
theorem C5_remove_clean_cex :
    "a" ∈ staleState.resources ∧ staleState.replicas = 9 ∧
    ringLen staleState = 18 ∧ ringLen (remove staleState "a") = 8 := by
  refine ⟨by decide, rfl, rfl, rfl⟩

/-- C6 (amended): for every ring built with a positive replica count and
driven by a collision-free operation sequence, `locate` returns `none`
exactly when the ring holds zero resources. -/
theorem C6_locate_none_iff (r : Nat) (ops : List Op) (D : List String) (B : Nat)
    (hr0 : 0 < r) (hD : D.Nodup) (hr : r ≤ B) (hB : D.length + REPLICAS_PAD ≤ B)
    (hops : ∀ op ∈ ops, opIdIn op D) (hinj : HKInj D B) (k : String) :
    (locate (run (newRing r) ops) k = none ↔
      (run (newRing r) ops).resources = []) := by
  have hwfb := @WFB_run D B ops (newRing r) (WFB_newRing hr) hinj hD hB hops
  constructor
  · intro hn
    by_contra hne
    obtain ⟨id, hid⟩ := List.exists_mem_of_ne_nil _ hne
    have hpos : 0 < (run (newRing r) ops).replicas := run_replicas_pos hr0
    have hkm := hwfb.complete id hid 0 hpos
    have hrne : (run (newRing r) ops).hashring ≠ [] := by
      intro he
      rw [he] at hkm
      cases hkm
    exact locate_ne_none k hwfb.wf.ringRes hrne hn
  · intro he
    apply locate_none_of_empty
    cases hring : (run (newRing r) ops).hashring with
    | nil => rfl
    | cons p t =>
      have hm := hwfb.wf.ringRes p (by rw [hring]; exact List.mem_cons_self p t)
      rw [he] at hm
      cases hm

/-- Witness for C6 at a concrete run. -/
theorem C6_locate_none_iff_witness :
    locate (run (newRing 1) [Op.add "a"]) "q" = none ↔
      (run (newRing 1) [Op.add "a"]).resources = [] :=
  C6_locate_none_iff 1 [Op.add "a"] ["a"] 9 (by decide) (by decide) (by decide)
    (by decide) (by decide) (by decide) "q"

/-- C6 counterexample: as literally stated the claim is false: a ring
constructed with `new_with_replica_count(0)` holds a resource but an
empty index, so `locate` returns `none` with a nonzero resource count. -/
theorem C6_locate_none_iff_cex :
    locate zeroReplicaState "x" = none ∧ resourceCount zeroReplicaState = 1 := by
  refine ⟨rfl, rfl⟩

/-- C7: in a ring whose registry holds exactly one resource and whose
index entries all belong to it (and is nonempty, as with any positive
replica count), `locate` returns that resource for every lookup key. -/
theorem C7_single_resource (lc : LightCycle) (id : String)
    (hres : lc.resources = [id]) (hvals : ∀ p ∈ lc.hashring, p.2 = id)
    (hne : lc.hashring ≠ []) (k : String) :
    locate lc k = some id :=
  locate_single (hres ▸ List.mem_singleton_self id) hvals hne k

/-- Witness for C7 on a one-resource ring, at lookup keys on both sides
of the resource's replica keys. -/
theorem C7_single_resource_witness :
    locate singleRing "０" = some "a" ∧ locate singleRing "zzz" = some "a" :=
  ⟨C7_single_resource singleRing "a" (by decide) (by decide) (by decide) "０",
   C7_single_resource singleRing "a" (by decide) (by decide) (by decide) "zzz"⟩

/-- C8 (amended): `locate` is deterministic across repeated calls, and —
provided the resources' replica keys are pairwise distinct up to an index
bound covering every replica count the builds reach (including the
replica counts set by any automatic rebalances) — two rings built by
adding the same resources in different orders, rebalances and all,
resolve every lookup key identically. -/
theorem C8_order_independent (r : Nat) (l1 l2 D : List String) (B : Nat) (k : String)
    (hinj : HKInj D B) (hD : D.Nodup) (hr : r ≤ B)
    (hB : D.length + REPLICAS_PAD ≤ B) (hperm : l1.Perm l2)
    (hnd : l1.Nodup) (hsub : ∀ id ∈ l1, id ∈ D) :
    locate (build r l1) k = locate (build r l1) k ∧
    locate (build r l1) k = locate (build r l2) k :=
  ⟨rfl, build_locate_eq_full hinj hD hr hB hperm hnd hsub k⟩

/-- Witness for C8 on two concrete insertion orders. -/
theorem C8_order_independent_witness :
    locate (build 2 ["a", "b"]) "q" = locate (build 2 ["b", "a"]) "q" :=
  (C8_order_independent 2 ["a", "b"] ["b", "a"] ["a", "b"] 10 "q" (by decide)
    (by decide) (by decide) (by decide) (by decide) (by decide) (by decide)).2

/-- C8 counterexample: as literally stated the claim is false.  The rings
built from `{"a", "a1"}` with replica count 12 in the two insertion
orders disagree on the lookup `"zzzz"`, because both resources share the
replica key of the item `"a11"` (`= "a1" ++ "1"`) and last write wins. -/
theorem C8_order_independent_cex :
    orderRing1.resources.Perm orderRing2.resources ∧
    locate orderRing1 "zzzz" = some "a1" ∧
    locate orderRing2 "zzzz" = some "a" := by
  refine ⟨by decide, rfl, rfl⟩

/-- C9: the Replica Key Cache is semantically transparent: for every
reachable ring state, emptying the cache and regenerating replica entries
— through `rebalance` or through `add` — produces exactly the Ring Index
obtained with the cache populated. -/
theorem C9_cache_transparent (r : Nat) (ops : List Op) (id : String) :
    (rebalance (clearCache (run (newRing r) ops))).hashring =
      (rebalance (run (newRing r) ops)).hashring ∧
    (add (clearCache (run (newRing r) ops)) id).hashring =
      (add (run (newRing r) ops) id).hashring := by
  have hpure : KCPure (run (newRing r) ops).keycache := (WF_run (WF_newRing r)).pure
  exact ⟨rebalance_clearCache hpure, add_clearCache hpure⟩

/-- C10: replica-key derivation concatenates the identifier and the
decimal index with no separator, so distinct `(identifier, index)` pairs
such as `("a", 11)` and `("a1", 1)` hash the same byte string and get the
same replica key; two registered resources can therefore collide on a
Ring Index key, as `collideState` exhibits (22 entries instead of 24). -/
theorem C10_concat_collision :
    hashItem "a" 11 = hashItem "a1" 1 ∧ ("a" : String) ≠ "a1" ∧
    hkey "a" 11 = hkey "a1" 1 ∧
    "a" ∈ collideState.resources ∧ "a1" ∈ collideState.resources ∧
    ringLen collideState = 22 := by
  refine ⟨rfl, by decide, rfl, by decide, by decide, rfl⟩

end LC
